import Mathlib

/-!
# Gaussian-Jordan matrix inversion (`gaussian.c`, `mat_ops.c`)

A shallow embedding of the C sources.  A `double**` is a pointer into a heap of
matrix blocks; a block is a table of cells indexed by row and column.  Entries
are exact rationals.  Indices are natural numbers: the cell `(i, j)` of a block
exists in the model for every `i` and `j`, and the cells outside the shape that
was requested from the allocator stand for the memory behind the buffer, so an
access with an index that is too large is visible as an access to such a cell.
-/

namespace MatrixInverse

/-- Contents of one `double**` block: row index, column index, entry. -/
abbrev Mat := Nat → Nat → ℚ

/-- The assignment `M[i][j] = v`. -/
def Mat.set (M : Mat) (i j : Nat) (v : ℚ) : Mat :=
  fun r c => if r = i ∧ c = j then v else M r c

/-- The heap: contents of every block, the shape each block was requested with,
which blocks are allocated and not yet freed, and the next block the allocator
hands out.  The contents of a block that has not been handed out yet are what
`malloc` will return: arbitrary. -/
structure Heap where
  mem : Nat → Mat
  shape : Nat → Int × Int
  live : Nat → Bool
  next : Nat

/-- Run a piece of code that reads and writes only through the pointer `p`. -/
def Heap.modify (h : Heap) (p : Nat) (f : Mat → Mat) : Heap :=
  { h with mem := Function.update h.mem p (f (h.mem p)) }

/-- The C loop `for (k = lo; k < hi; k++) body`, threading the state `s`. -/
def forLoop {σ : Type} (lo hi : Nat) (body : Nat → σ → σ) (s : σ) : σ :=
  (List.range' lo (hi - lo)).foldl (fun s k => body k s) s

/-- The C loop `for (k = hi - 1; k >= 0; k--) body`, threading the state `s`. -/
def forLoopDown {σ : Type} (hi : Nat) (body : Nat → σ → σ) (s : σ) : σ :=
  (List.range hi).reverse.foldl (fun s k => body k s) s

/-! ## `mat_ops.c` -/

/-- `free_ptr(r, p)`: the rows and the row table of `p` are released. -/
def free_ptr (h : Heap) (_r : Int) (p : Nat) : Heap :=
  { h with live := Function.update h.live p false }

/-- `mat_zeros(row, col)`: `malloc` of the row table and of `row` rows of `col`
doubles.  The function stores nothing into the rows.  This is the call in which
every `malloc` succeeds, as it does for `row, col ≥ 0` within the memory available;
with a negative count the byte size computed by the source wraps around, `malloc`
returns `NULL`, and that outcome is not represented here. -/
def mat_zeros (h : Heap) (row col : Int) : Nat × Heap :=
  (h.next,
    { h with
      shape := Function.update h.shape h.next (row, col)
      live := Function.update h.live h.next true
      next := h.next + 1 })

/-- `copy_mat(r, c, new, old)`, as a function of the contents of `new` and `old`. -/
def copy_cells (r c : Nat) (new old : Mat) : Mat :=
  forLoop 0 r (fun i M => forLoop 0 c (fun j M => M.set i j (old i j)) M) new

/-- `copy_mat(r, c, new, old)`. -/
def copy_mat (h : Heap) (r c : Int) (new old : Nat) : Heap :=
  h.modify new fun M => copy_cells r.toNat c.toNat M (h.mem old)

/-- The three nested loops of `mat_mul`: `product[i][j] += mat_l[i][k] * mat_r[k][j]`. -/
def mul_cells (m p n : Nat) (product mat_l mat_r : Mat) : Mat :=
  forLoop 0 m (fun i M =>
    forLoop 0 n (fun j M =>
      forLoop 0 p (fun k M => M.set i j (M i j + mat_l i k * mat_r k j)) M) M) product

/-- `mat_mul(m, p, n, mat_l, mat_r)`. -/
def mat_mul (h : Heap) (m p n : Int) (mat_l mat_r : Nat) : Nat × Heap :=
  let a := mat_zeros h m n
  (a.1, a.2.modify a.1 fun M =>
    mul_cells m.toNat p.toNat n.toNat M (a.2.mem mat_l) (a.2.mem mat_r))

/-- The two nested loops of `mat_trans`: `mat_new[j][i] = mat_old[i][j]`. -/
def trans_cells (row col : Nat) (mat_new mat_old : Mat) : Mat :=
  forLoop 0 row (fun i M => forLoop 0 col (fun j M => M.set j i (mat_old i j)) M) mat_new

/-- `mat_trans(row, col, mat_old)`; the result block is requested as `row × col`. -/
def mat_trans (h : Heap) (row col : Int) (mat_old : Nat) : Nat × Heap :=
  let a := mat_zeros h row col
  (a.1, a.2.modify a.1 fun M => trans_cells row.toNat col.toNat M (a.2.mem mat_old))

/-! ## `gaussian.c` -/

/-- `check_nonzero_row(current, dim, mat)`: is there a nonzero entry in the
columns `0 .. dim-1` of a row strictly below `current`? -/
def check_nonzero_row (current dim : Nat) (mat : Mat) : Bool :=
  (List.range' (current + 1) (dim - (current + 1))).any fun i =>
    (List.range dim).any fun j => decide (mat i j ≠ 0)

/-- The loop of `REF` that writes the identity matrix into the right block. -/
def augment_identity (dim : Nat) (new : Mat) : Mat :=
  forLoop 0 dim (fun i M =>
    forLoop 0 dim (fun j M =>
      if i = j then M.set i (j + dim) 1 else M.set i (j + dim) 0) M) new

/-- The search of `REF` for the leftmost nonzero column among the rows from `i`
on; the result is `(leftmost_col_pos, leftmost_row_pos)`, both starting at `dim`. -/
def leftmost (i dim : Nat) (new : Mat) : Nat × Nat :=
  forLoop i dim (fun r s =>
    forLoop 0 dim (fun c s => if new r c ≠ 0 ∧ c < s.1 then (c, r) else s) s) (dim, dim)

/-- Step 3.1 of `REF`: exchange row `i` and row `leftmost_row_pos` when they differ. -/
def swap_rows (i leftmost_row_pos dim : Nat) (new : Mat) : Mat :=
  if leftmost_row_pos ≠ i then
    forLoop 0 (2 * dim) (fun k M =>
      let temp := M i k
      (M.set i k (M leftmost_row_pos k)).set leftmost_row_pos k temp) new
  else new

/-- Normalisation in `REF`: divide row `i` by `norm = new[i][leftmost_col_pos]`. -/
def normalize_row (i leftmost_col_pos dim : Nat) (new : Mat) : Mat :=
  let norm := new i leftmost_col_pos
  forLoop 0 (2 * dim) (fun k M => M.set i k (M i k / norm)) new

/-- Elimination below the pivot in `REF`; the inner loop runs `k = 0 .. 2*dim`
inclusive, as the source's `k <= 2*dim` does. -/
def zeros_below (i leftmost_col_pos dim : Nat) (new : Mat) : Mat :=
  forLoop (i + 1) dim (fun j M =>
    if M j leftmost_col_pos ≠ 0 then
      let ratio := M j leftmost_col_pos / M i leftmost_col_pos
      forLoop 0 (2 * dim + 1) (fun k M => M.set j k (M j k - M i k * ratio)) M
    else M) new

/-- The body of the elimination loop of `REF` up to the final test: pivot search,
swap, normalisation, elimination below. -/
def REF_step (i dim : Nat) (new : Mat) : Mat :=
  let pos := leftmost i dim new
  zeros_below i pos.1 dim (normalize_row i pos.1 dim (swap_rows i pos.2 dim new))

/-- The elimination loop of `REF`, `for (i = ..; i < dim; i++)` with its `break`.
The first numeric argument is the number of iterations left, `dim - i`. -/
def REF_loop (dim : Nat) : Nat → Nat → Mat → Mat
  | 0, _, new => new
  | left + 1, i, new =>
    let new1 := REF_step i dim new
    if check_nonzero_row i dim new1 = false then new1 else REF_loop dim left (i + 1) new1

/-- `REF(dim, mat)`: the augmented block is requested as `dim × 2*dim`, `mat` is
copied into its left half and the identity written into its right half. -/
def REF (h : Heap) (dim : Int) (mat : Nat) : Nat × Heap :=
  let a := mat_zeros h dim (2 * dim)
  let h1 := copy_mat a.2 dim dim a.1 mat
  (a.1, h1.modify a.1 fun M =>
    REF_loop dim.toNat dim.toNat 0 (augment_identity dim.toNat M))

/-- The search loop of `erase_zeros_above`: rows `row_bound` down to `0`, in a row
columns `0` up to `col_bound`, stopping at the first nonzero entry.  The result is
`(rightmost_row_pos, rightmost_col_pos)`; `none` stands for both still being `-1`. -/
def rightmost (row_bound col_bound : Nat) (mat : Mat) : Option (Nat × Nat) :=
  (List.range (row_bound + 1)).reverse.findSome? fun i =>
    ((List.range (col_bound + 1)).find? fun j => decide (mat i j ≠ 0)).map fun j => (i, j)

/-- The elimination loop of `erase_zeros_above` for the pivot
`pos = (rightmost_row_pos, rightmost_col_pos)`. -/
def erase_cells (pos : Nat × Nat) (dim : Nat) (mat : Mat) : Mat :=
  forLoopDown pos.1 (fun i M =>
    let ratio := M i pos.2 / M pos.1 pos.2
    forLoop pos.2 (2 * dim) (fun j M => M.set i j (M i j - ratio * M pos.1 j)) M) mat

/-- `erase_zeros_above(row_bound, col_bound, dim, mat)` acting on the block of
`mat`: the returned `rightmost_col_pos` and the block afterwards.  With both
positions `-1` the elimination loop does not run. -/
def erase_zeros_above (row_bound col_bound dim : Nat) (mat : Mat) : Int × Mat :=
  match rightmost row_bound col_bound mat with
  | none => (-1, mat)
  | some pos => (pos.2, erase_cells pos dim mat)

/-- The `while (row_bound >= 0)` loop of `RREF`: `row_bound = col_bound` runs
from `dim - 1` down to `0`. -/
def RREF_loop (dim : Nat) (mat : Mat) : Mat :=
  forLoopDown dim (fun b M => (erase_zeros_above b b dim M).2) mat

/-- The copy loop of `RREF`: `new[i][j-dim] = mat[i][j]` for `j = dim .. 2*dim-1`. -/
def extract_right (dim : Nat) (new mat : Mat) : Mat :=
  forLoop 0 dim (fun i N =>
    forLoop dim (2 * dim) (fun j N => N.set i (j - dim) (mat i j)) N) new

/-- `RREF(dim, mat)`: back-elimination in place on `mat`, then the right half is
copied into a block requested as `dim × dim`. -/
def RREF (h : Heap) (dim : Int) (mat : Nat) : Nat × Heap :=
  let h1 := h.modify mat (RREF_loop dim.toNat)
  let a := mat_zeros h1 dim dim
  (a.1, a.2.modify a.1 fun N => extract_right dim.toNat N (a.2.mem mat))

/-- `inv(dim, mat)`. -/
def inv (h : Heap) (dim : Int) (mat : Nat) : Nat × Heap :=
  let t := REF h dim mat
  let r := RREF t.2 dim t.1
  (r.1, free_ptr r.2 dim t.1)

/-! ## Vocabulary of the properties -/

/-- The `n × m` matrix stored in the top left corner of a block. -/
def block (n m : Nat) (M : Mat) : Matrix (Fin n) (Fin m) ℚ :=
  Matrix.of fun i j => M i j

/-- Columns `n .. 2n-1` of the first `n` rows of a block. -/
def rightBlock (n : Nat) (M : Mat) : Matrix (Fin n) (Fin n) ℚ :=
  Matrix.of fun i j => M i (n + j)

/-- The block holding the `n × n` identity matrix (and zero elsewhere). -/
def identityMat : Mat := fun i j => if i = j then 1 else 0

/-- The leftmost nonzero entry of row `r` within the columns `0 .. n-1`: its
column, or `none` when the left block of the row is all zero. -/
def leading (n : Nat) (M : Mat) (r : Nat) : Option Nat :=
  (List.range n).find? fun c => decide (M r c ≠ 0)

/-- Row echelon form of the left `n × n` block: the leading columns of two
consecutive nonzero rows increase strictly, zero rows lie below the nonzero rows,
and below a leading entry its column is zero. -/
def RowEchelon (n : Nat) (M : Mat) : Prop :=
  (∀ r a b, r + 1 < n → leading n M r = some a → leading n M (r + 1) = some b → a < b) ∧
  (∀ r r', r < n → r' < n → leading n M r = none → leading n M r' ≠ none → r' < r) ∧
  (∀ r c r', r < n → leading n M r = some c → r < r' → r' < n → M r' c = 0)

/-- What the pivot search has established once every cell before `(k, l)` in scan
order has been visited. -/
def ScanInv (i n : Nat) (M : Mat) (k l : Nat) (s : Nat × Nat) : Prop :=
  s.1 ≤ n ∧
  (∀ r c, i ≤ r → c < n → (r < k ∨ (r = k ∧ c < l)) → M r c ≠ 0 → s.1 ≤ c) ∧
  (s.1 < n → i ≤ s.2 ∧ (s.2 < k ∨ (s.2 = k ∧ s.1 < l)) ∧ M s.2 s.1 ≠ 0 ∧
    ∀ r, i ≤ r → r < s.2 → M r s.1 = 0) ∧
  (s.1 = n → s.2 = n)

/-- Some entry of the left block in a row from `i` on is nonzero. -/
def HasNonzero (i n : Nat) (M : Mat) : Prop :=
  ∃ r c, i ≤ r ∧ r < n ∧ c < n ∧ M r c ≠ 0

/-- The rows `0 .. k-1` of the left block form a staircase: each has a leading
entry `1`, and every row below it (up to row `n-1`) is zero up to and including
the column of that entry. -/
def Stair (n k : Nat) (M : Mat) : Prop :=
  ∀ r, r < k → ∃ c, c < n ∧ M r c = 1 ∧ (∀ c', c' < c → M r c' = 0) ∧
    ∀ r' c', r < r' → r' < n → c' ≤ c → M r' c' = 0

/-- A property of rows of width `2n` that is kept by linear combinations. -/
def LinClosed (n : Nat) (Q : (Nat → ℚ) → Prop) : Prop :=
  ∀ (v w u : Nat → ℚ) (a b : ℚ), Q v → Q w →
    (∀ c, c < 2 * n → u c = a * v c + b * w c) → Q u

/-- The row `v` of an augmented matrix satisfies `left = right × A`. -/
def RowRel (n : Nat) (A : Mat) (v : Nat → ℚ) : Prop :=
  ∀ c, c < n → v c = ∑ k in Finset.range n, v (n + k) * A k c

/-- The block whose top left corner holds the given rows (zero elsewhere). -/
def ofRows (rows : List (List ℚ)) : Mat :=
  fun i j => (rows.getD i []).getD j 0

/-- A heap in which the caller owns one block, number `0`, requested as
`rows × cols` and holding `A`; every block not yet allocated holds `garbage`. -/
def heapWith (rows cols : Int) (A garbage : Mat) : Heap where
  mem := fun p => if p = 0 then A else garbage
  shape := fun p => if p = 0 then (rows, cols) else (0, 0)
  live := fun p => decide (p = 0)
  next := 1

/-! ## The generator of `mat_ops.c` -/

/-- `s_xorshift96(usr_def_seed)`: the new value of the static `uint32_t seed`. -/
def s_xorshift96 (usr_def_seed : Nat) : Nat := usr_def_seed % 2 ^ 32

/-- `xorshift96(min, max)` run on the static `seed`: the number returned and the
new value of `seed`, in `uint32_t` arithmetic.  `reg_y` and `reg_z` are locals,
set afresh in every call; `seed` is all that survives a call. -/
def xorshift96 (seed : Nat) (min max : Int) : Nat × Nat :=
  let reg_y := (seed <<< 1) % 2 ^ 32
  let reg_z := 521288629
  let reg_t := seed ^^^ ((seed <<< 10) % 2 ^ 32)
  let reg_z1 := (reg_z ^^^ (reg_z >>> 26)) ^^^ (reg_t ^^^ (reg_t >>> 5))
  ((reg_z1 % ((max + 1 - min) % 2 ^ 32).toNat + (min % 2 ^ 32).toNat) % 2 ^ 32, reg_y)

/-- The value of `seed` after `k` calls of `xorshift96(min, max)`. -/
def seed_after (min max : Int) (seed : Nat) : Nat → Nat
  | 0 => seed
  | k + 1 => (xorshift96 (seed_after min max seed k) min max).2

/-- The number returned by call number `k + 1` of `xorshift96(min, max)`. -/
def output_at (min max : Int) (seed : Nat) (k : Nat) : Nat :=
  (xorshift96 (seed_after min max seed k) min max).1

/-! ## The iterations of the two loops of `gaussian.c` -/

/-- The state of the left block during back-elimination on an invertible input,
when `row_bound` is about to take the value `k - 1`: unit diagonal, zeros below it,
zeros above it in the columns from `k` on, and `left = right × A` in every row. -/
def BackInv (n : Nat) (A : Mat) (k : Nat) (M : Mat) : Prop :=
  (∀ r, r < n → M r r = 1) ∧ (∀ r c, r < n → c < r → M r c = 0) ∧
  (∀ r c, r < c → c < n → k ≤ c → M r c = 0) ∧ (∀ r, r < n → RowRel n A (M r))

/-- The augmented matrix `[L | R]` satisfies `R × A = L`. -/
def AugRel (n : Nat) (A M : Mat) : Prop :=
  rightBlock n M * block n n A = block n n M

/-- The matrices the elimination loop of `REF` holds at the end of each of its
iterations, in order; the recursion is that of `REF_loop`. -/
def REF_states (dim : Nat) : Nat → Nat → Mat → List Mat
  | 0, _, _ => []
  | left + 1, i, new =>
    let new1 := REF_step i dim new
    if check_nonzero_row i dim new1 = false then [new1]
    else new1 :: REF_states dim left (i + 1) new1

/-- The loop of `RREF` with a record of its calls of `erase_zeros_above`, in
order: for each call the pivot position its search located and the matrix after
the call.  The first component is the matrix the loop works on. -/
def RREF_calls (dim : Nat) (mat : Mat) : Mat × List (Option (Nat × Nat) × Mat) :=
  forLoopDown dim (fun b s =>
    ((erase_zeros_above b b dim s.1).2,
      s.2 ++ [(rightmost b b s.1, (erase_zeros_above b b dim s.1).2)])) (mat, [])

/-! ## The divisions of `inv`

The loops of `gaussian.c` that divide, with a record of the divisor of every
division executed: the state is the matrix together with the divisors so far. -/

/-- Normalisation in `REF`: one division by `norm` for each `k`. -/
def normalize_row_div (i leftmost_col_pos dim : Nat) (s : Mat × List ℚ) : Mat × List ℚ :=
  let norm := s.1 i leftmost_col_pos
  forLoop 0 (2 * dim) (fun k s => (s.1.set i k (s.1 i k / norm), s.2 ++ [norm])) s

/-- Elimination below the pivot in `REF`: one division by `new[i][leftmost_col_pos]`
for each row `j` whose entry in the pivot column is nonzero. -/
def zeros_below_div (i leftmost_col_pos dim : Nat) (s : Mat × List ℚ) : Mat × List ℚ :=
  forLoop (i + 1) dim (fun j s =>
    if s.1 j leftmost_col_pos ≠ 0 then
      let ratio := s.1 j leftmost_col_pos / s.1 i leftmost_col_pos
      (forLoop 0 (2 * dim + 1) (fun k M => M.set j k (M j k - M i k * ratio)) s.1,
        s.2 ++ [s.1 i leftmost_col_pos])
    else s) s

/-- One iteration of the elimination loop of `REF` up to its final test. -/
def REF_step_div (i dim : Nat) (s : Mat × List ℚ) : Mat × List ℚ :=
  let pos := leftmost i dim s.1
  zeros_below_div i pos.1 dim
    (normalize_row_div i pos.1 dim (swap_rows i pos.2 dim s.1, s.2))

/-- The elimination loop of `REF`. -/
def REF_loop_div (dim : Nat) : Nat → Nat → Mat × List ℚ → Mat × List ℚ
  | 0, _, s => s
  | left + 1, i, s =>
    let s1 := REF_step_div i dim s
    if check_nonzero_row i dim s1.1 = false then s1 else REF_loop_div dim left (i + 1) s1

/-- The elimination loop of `erase_zeros_above`: one division by
`mat[rightmost_row_pos][rightmost_col_pos]` for each row above the pivot. -/
def erase_cells_div (pos : Nat × Nat) (dim : Nat) (s : Mat × List ℚ) : Mat × List ℚ :=
  forLoopDown pos.1 (fun i s =>
    let ratio := s.1 i pos.2 / s.1 pos.1 pos.2
    (forLoop pos.2 (2 * dim) (fun j M => M.set i j (M i j - ratio * M pos.1 j)) s.1,
      s.2 ++ [s.1 pos.1 pos.2])) s

/-- `erase_zeros_above`: no division when the search finds nothing. -/
def erase_zeros_above_div (row_bound col_bound dim : Nat) (s : Mat × List ℚ) :
    Mat × List ℚ :=
  match rightmost row_bound col_bound s.1 with
  | none => s
  | some pos => erase_cells_div pos dim s

/-- The back-elimination loop of `RREF`. -/
def RREF_loop_div (dim : Nat) (s : Mat × List ℚ) : Mat × List ℚ :=
  forLoopDown dim (fun b s => erase_zeros_above_div b b dim s) s

/-- The divisors of all divisions executed by `inv(dim, A)`, in order, `G` being
the contents of the block `REF` gets from the allocator. -/
def inv_divisors (dim : Nat) (A G : Mat) : List ℚ :=
  (RREF_loop_div dim
    (REF_loop_div dim dim 0 (augment_identity dim (copy_cells dim dim G A), []))).2

/-! ## Loops -/

theorem forLoop_empty {σ : Type} (lo hi : Nat) (body : Nat → σ → σ) (s : σ) (h : hi ≤ lo) :
    forLoop lo hi body s = s := by
  have : hi - lo = 0 := by omega
  simp [forLoop, this]

theorem forLoop_succ {σ : Type} (lo hi : Nat) (body : Nat → σ → σ) (s : σ) (h : lo ≤ hi) :
    forLoop lo (hi + 1) body s = body hi (forLoop lo hi body s) := by
  have e : hi + 1 - lo = (hi - lo) + 1 := by omega
  have e2 : lo + (hi - lo) = hi := by omega
  simp [forLoop, e, List.range'_concat, List.foldl_append, e2]

theorem forLoop_ind {σ : Type} (P : Nat → σ → Prop) (lo hi : Nat) (body : Nat → σ → σ) (s : σ)
    (hle : lo ≤ hi) (h0 : P lo s)
    (hstep : ∀ k t, lo ≤ k → k < hi → P k t → P (k + 1) (body k t)) :
    P hi (forLoop lo hi body s) := by
  induction hi with
  | zero =>
    have : lo = 0 := by omega
    subst this
    simpa [forLoop] using h0
  | succ m ih =>
    rcases Nat.eq_or_lt_of_le hle with e | hlt
    · subst e
      rw [forLoop_empty _ _ _ _ (le_refl _)]
      exact h0
    · have hm : lo ≤ m := by omega
      rw [forLoop_succ _ _ _ _ hm]
      exact hstep m _ hm (by omega)
        (ih hm (fun k t h1 h2 hp => hstep k t h1 (by omega) hp))

theorem forLoopDown_succ {σ : Type} (hi : Nat) (body : Nat → σ → σ) (s : σ) :
    forLoopDown (hi + 1) body s = forLoopDown hi body (body hi s) := by
  simp [forLoopDown, List.range_succ]

theorem forLoopDown_ind {σ : Type} (P : Nat → σ → Prop) (hi : Nat) (body : Nat → σ → σ) (s : σ)
    (h0 : P hi s) (hstep : ∀ k t, k < hi → P (k + 1) t → P k (body k t)) :
    P 0 (forLoopDown hi body s) := by
  induction hi generalizing s with
  | zero => simpa [forLoopDown] using h0
  | succ m ih =>
    rw [forLoopDown_succ]
    exact ih _ (hstep m s (by omega) h0) (fun k t hk hp => hstep k t (by omega) hp)

/-! ## Closed forms of the cell loops -/

theorem copy_cells_eq (r c : Nat) (new old : Mat) :
    copy_cells r c new old = fun i j => if i < r ∧ j < c then old i j else new i j := by
  unfold copy_cells
  refine forLoop_ind (fun k M => M = fun i j => if i < k ∧ j < c then old i j else new i j)
    0 r _ _ (Nat.zero_le _) (by simp) ?_
  intro k t _ hk ht
  refine forLoop_ind (fun l M => M = fun i j =>
    if (i < k ∧ j < c) ∨ (i = k ∧ j < l) then old i j else new i j) 0 c _ _ (Nat.zero_le _)
    (by subst ht; funext i j; simp) ?_ |>.trans ?_
  · intro l u _ hl hu
    subst hu
    funext i j
    simp only [Mat.set]
    split_ifs <;> first | rfl | (exfalso; omega) | simp_all
  · funext i j
    split_ifs <;> first | rfl | (exfalso; omega)

theorem augment_identity_eq (n : Nat) (new : Mat) :
    augment_identity n new = fun i j =>
      if i < n ∧ n ≤ j ∧ j < 2 * n then (if j = i + n then 1 else 0) else new i j := by
  unfold augment_identity
  refine forLoop_ind (fun k M => M = fun i j =>
    if i < k ∧ n ≤ j ∧ j < 2 * n then (if j = i + n then 1 else 0) else new i j)
    0 n _ _ (Nat.zero_le _) (by simp) ?_
  intro k t _ hk ht
  refine forLoop_ind (fun l M => M = fun i j =>
    if (i < k ∧ n ≤ j ∧ j < 2 * n) ∨ (i = k ∧ n ≤ j ∧ j < l + n) then
      (if j = i + n then 1 else 0) else new i j) 0 n _ _ (Nat.zero_le _)
    (by subst ht; funext i j; split_ifs <;> first | rfl | (exfalso; omega)) ?_ |>.trans ?_
  · intro l u _ hl hu
    subst hu
    funext i j
    by_cases hkl : k = l
    · simp only [hkl, if_true, Mat.set]
      split_ifs <;> first | rfl | (exfalso; omega)
    · simp only [hkl, if_false, Mat.set]
      split_ifs <;> first | rfl | (exfalso; omega)
  · funext i j
    split_ifs <;> first | rfl | (exfalso; omega)

theorem swap_rows_eq (i p n : Nat) (new : Mat) :
    swap_rows i p n new = fun r c =>
      if c < 2 * n then (if r = i then new p c else if r = p then new i c else new r c)
      else new r c := by
  unfold swap_rows
  by_cases hp : p = i
  · subst hp
    funext r c
    split_ifs <;> simp_all
  · rw [if_pos hp]
    refine forLoop_ind (fun k M => M = fun r c =>
      if c < k then (if r = i then new p c else if r = p then new i c else new r c)
      else new r c) 0 (2 * n) _ _ (Nat.zero_le _) (by simp) ?_
    intro k t _ hk ht
    subst ht
    funext r c
    simp only [Mat.set]
    split_ifs <;> first | rfl | (exfalso; omega) | simp_all

theorem normalize_row_eq (i c0 n : Nat) (new : Mat) :
    normalize_row i c0 n new = fun r c =>
      if r = i ∧ c < 2 * n then new i c / new i c0 else new r c := by
  unfold normalize_row
  refine forLoop_ind (fun k M => M = fun r c =>
    if r = i ∧ c < k then new i c / new i c0 else new r c) 0 (2 * n) _ _ (Nat.zero_le _)
    (by simp) ?_
  intro k t _ hk ht
  subst ht
  funext r c
  simp only [Mat.set]
  split_ifs <;> first | rfl | (exfalso; omega) | simp_all

theorem zeros_below_eq (i c0 n : Nat) (new : Mat) :
    zeros_below i c0 n new = fun r c =>
      if i < r ∧ r < n ∧ c ≤ 2 * n then new r c - new i c * (new r c0 / new i c0)
      else new r c := by
  unfold zeros_below
  by_cases hin : i + 1 ≤ n
  swap
  · rw [forLoop_empty _ _ _ _ (by omega)]
    funext r c
    rw [if_neg (by omega)]
  refine forLoop_ind (fun k M => M = fun r c =>
    if i < r ∧ r < k ∧ c ≤ 2 * n then new r c - new i c * (new r c0 / new i c0)
    else new r c) (i + 1) n _ _ hin (by funext r c; rw [if_neg (by omega)]) ?_
  intro j t hj1 hj2 ht
  have hj : t j = new j := by subst ht; funext c; simp
  have hi : t i = new i := by subst ht; funext c; simp
  by_cases hz : t j c0 = 0
  · rw [if_neg (by simpa using hz)]
    subst ht
    funext r c
    by_cases hr : r = j
    · subst hr
      have : new r c0 = 0 := by rw [← hj]; exact hz
      simp [this]
    · split_ifs <;> first | rfl | (exfalso; omega)
  · rw [if_pos hz]
    refine forLoop_ind (fun l M => M = fun r c =>
      if r = j ∧ c < l then t j c - t i c * (t j c0 / t i c0) else t r c)
      0 (2 * n + 1) _ _ (Nat.zero_le _) (by simp) ?_ |>.trans ?_
    · intro l u _ hl hu
      subst hu
      funext r c
      have hne : ¬ i = j := by omega
      simp only [Mat.set]
      split_ifs <;> first | rfl | (exfalso; omega) | simp_all
    · rw [hj, hi]
      subst ht
      funext r c
      beta_reduce
      by_cases hr : r = j
      · subst hr
        by_cases hc : c < 2 * n + 1
        · have h2 : i < r ∧ r < r + 1 ∧ c ≤ 2 * n := by omega
          rw [if_pos ⟨rfl, hc⟩, if_pos h2]
        · have h1 : ¬ (r = r ∧ c < 2 * n + 1) := by omega
          have h2 : ¬ (i < r ∧ r < r + 1 ∧ c ≤ 2 * n) := by omega
          have h3 : ¬ (i < r ∧ r < r ∧ c ≤ 2 * n) := by omega
          rw [if_neg h1, if_neg h2, if_neg h3]
      · have h1 : ¬ (r = j ∧ c < 2 * n + 1) := by omega
        rw [if_neg h1]
        split_ifs <;> first | rfl | (exfalso; omega)

theorem check_nonzero_row_false (i n : Nat) (M : Mat) :
    check_nonzero_row i n M = false ↔ ∀ r c, i < r → r < n → c < n → M r c = 0 := by
  unfold check_nonzero_row
  rw [List.any_eq_false]
  constructor
  · intro h r c h1 h2 h3
    have := h r (by rw [List.mem_range']; exact ⟨r - (i + 1), by omega, by omega⟩)
    rw [Bool.not_eq_true, List.any_eq_false] at this
    simpa using this c (List.mem_range.2 h3)
  · intro h r hr
    rw [List.mem_range'] at hr
    obtain ⟨k, hk, rfl⟩ := hr
    rw [Bool.not_eq_true, List.any_eq_false]
    intro c hc
    have := h (i + 1 + 1 * k) c (by omega) (by omega) (List.mem_range.1 hc)
    simpa using this

theorem leftmost_scan (i n : Nat) (M : Mat) (hi : i ≤ n) :
    ScanInv i n M n 0 (leftmost i n M) := by
  unfold leftmost
  refine forLoop_ind (fun k s => ScanInv i n M k 0 s) i n _ _ hi ?_ ?_
  · refine ⟨le_refl _, ?_, ?_, fun _ => rfl⟩
    · intro r c h1 h2 h3
      exfalso; omega
    · intro h
      exact absurd h (lt_irrefl _)
  · intro k s hk1 hk2 hs
    have key : ScanInv i n M k n
        (forLoop 0 n (fun c s => if M k c ≠ 0 ∧ c < s.1 then (c, k) else s) s) := by
      refine forLoop_ind (fun l s => ScanInv i n M k l s) 0 n _ _ (Nat.zero_le _) hs ?_
      intro l t _ hl ht
      obtain ⟨h1, h2, h3, h4⟩ := ht
      by_cases hc : M k l ≠ 0 ∧ l < t.1
      · rw [if_pos hc]
        refine ⟨by simp; omega, ?_, ?_, ?_⟩
        · intro r c hr hcn hsc hne
          simp only
          rcases hsc with hsc | ⟨hsc, hcl⟩
          · have := h2 r c hr hcn (Or.inl hsc) hne
            omega
          · rcases Nat.lt_or_ge c l with hlt | hge
            · have := h2 r c hr hcn (Or.inr ⟨hsc, hlt⟩) hne
              omega
            · exact hge
        · intro _
          refine ⟨hk1, Or.inr ⟨rfl, by simp⟩, hc.1, ?_⟩
          intro r hr1 hr2
          by_contra hne
          have := h2 r l hr1 hl (Or.inl hr2) hne
          omega
        · intro h
          simp only at h
          omega
      · rw [if_neg hc]
        refine ⟨h1, ?_, ?_, h4⟩
        · intro r c hr hcn hsc hne
          rcases hsc with hsc | ⟨hsc, hcl⟩
          · exact h2 r c hr hcn (Or.inl hsc) hne
          · rcases Nat.lt_or_ge c l with hlt | hge
            · exact h2 r c hr hcn (Or.inr ⟨hsc, hlt⟩) hne
            · have hcl2 : c = l := by omega
              subst hcl2
              subst hsc
              by_contra hlt
              exact hc ⟨hne, by omega⟩
        · intro h
          obtain ⟨a, b, c, d⟩ := h3 h
          exact ⟨a, by omega, c, d⟩
    obtain ⟨h1, h2, h3, h4⟩ := key
    refine ⟨h1, ?_, ?_, h4⟩
    · intro r c hr hcn hsc hne
      exact h2 r c hr hcn (by omega) hne
    · intro h
      obtain ⟨a, b, c, d⟩ := h3 h
      exact ⟨a, by omega, c, d⟩

/-- The pivot search finds the leftmost column holding a nonzero entry in a row
from `i` on, and the topmost such row of that column. -/
theorem leftmost_spec (i n : Nat) (M : Mat)
    (hnz : ∃ r c, i ≤ r ∧ r < n ∧ c < n ∧ M r c ≠ 0) :
    (leftmost i n M).1 < n ∧ i ≤ (leftmost i n M).2 ∧ (leftmost i n M).2 < n ∧
    M (leftmost i n M).2 (leftmost i n M).1 ≠ 0 ∧
    (∀ r c, i ≤ r → r < n → c < (leftmost i n M).1 → M r c = 0) ∧
    (∀ r, i ≤ r → r < (leftmost i n M).2 → M r (leftmost i n M).1 = 0) := by
  obtain ⟨r0, c0, hr0, hr0n, hc0, hne0⟩ := hnz
  obtain ⟨h1, h2, h3, h4⟩ := leftmost_scan i n M (by omega)
  have hlt : (leftmost i n M).1 < n := by
    have := h2 r0 c0 hr0 hc0 (Or.inl hr0n) hne0
    omega
  obtain ⟨a, b, c, d⟩ := h3 hlt
  refine ⟨hlt, a, by omega, c, ?_, d⟩
  intro r c' hr hrn hc'
  by_contra hne
  have := h2 r c' hr (by omega) (Or.inl hrn) hne
  omega

theorem leftmost_none (i n : Nat) (M : Mat) (hi : i ≤ n)
    (hz : ∀ r c, i ≤ r → r < n → c < n → M r c = 0) :
    leftmost i n M = (n, n) := by
  obtain ⟨h1, h2, h3, h4⟩ := leftmost_scan i n M hi
  have hge : (leftmost i n M).1 = n := by
    by_contra hne
    have hlt : (leftmost i n M).1 < n := by omega
    obtain ⟨a, b, c, d⟩ := h3 hlt
    exact c (hz _ _ a (by omega) hlt)
  exact Prod.ext hge (h4 hge)

/-! ## One iteration of the elimination loop of `REF` -/

/-- Rows above `i` and rows from `n` on are not touched by an iteration. -/
theorem REF_step_outside (i n : Nat) (M : Mat) (h : HasNonzero i n M) (r c : Nat)
    (hr : r < i ∨ n ≤ r) : REF_step i n M r c = M r c := by
  obtain ⟨h1, h2, h3, -⟩ := leftmost_spec i n M h
  unfold REF_step
  simp only [zeros_below_eq, normalize_row_eq, swap_rows_eq]
  have e1 : ¬ (i < r ∧ r < n ∧ c ≤ 2 * n) := by omega
  have e2 : ¬ (r = i ∧ c < 2 * n) := by omega
  have e3 : ¬ r = i := by omega
  have e4 : ¬ r = (leftmost i n M).2 := by omega
  simp only [e1, e2, e3, e4, if_false, ite_self, false_and]

/-- Row `i` after an iteration: the pivot row divided by the pivot. -/
theorem REF_step_pivot_row (i n : Nat) (M : Mat) (h : HasNonzero i n M) (c : Nat)
    (hc : c < 2 * n) :
    REF_step i n M i c =
      M (leftmost i n M).2 c / M (leftmost i n M).2 (leftmost i n M).1 := by
  obtain ⟨h1, h2, h3, -⟩ := leftmost_spec i n M h
  unfold REF_step
  simp only [zeros_below_eq, normalize_row_eq, swap_rows_eq]
  have e1 : ¬ (i < i ∧ i < n ∧ c ≤ 2 * n) := by omega
  have e5 : (leftmost i n M).1 < 2 * n := by omega
  simp only [e1, hc, e5, if_false, if_true, and_self, true_and]

/-- A row below `i` after an iteration: the row that the swap put there, minus
its entry in the pivot column times the normalised pivot row. -/
theorem REF_step_lower_row (i n : Nat) (M : Mat) (h : HasNonzero i n M) (r c : Nat)
    (hr1 : i < r) (hr2 : r < n) (hc : c < 2 * n) :
    REF_step i n M r c =
      (if r = (leftmost i n M).2 then M i c else M r c)
        - M (leftmost i n M).2 c / M (leftmost i n M).2 (leftmost i n M).1
          * (if r = (leftmost i n M).2 then M i (leftmost i n M).1
              else M r (leftmost i n M).1) := by
  obtain ⟨h1, h2, h3, h4, -⟩ := leftmost_spec i n M h
  unfold REF_step
  simp only [zeros_below_eq, normalize_row_eq, swap_rows_eq]
  have e1 : i < r ∧ r < n ∧ c ≤ 2 * n := by omega
  have e2 : ¬ (r = i ∧ c < 2 * n) := by omega
  have e3 : ¬ r = i := by omega
  have e5 : (leftmost i n M).1 < 2 * n := by omega
  have e6 : ¬ (r = i ∧ (leftmost i n M).1 < 2 * n) := by omega
  simp only [e1, e2, e3, e5, e6, hc, if_false, if_true, and_self, true_and, false_and]
  rw [div_self h4, div_one]

/-- A property of rows kept by linear combinations passes from the rows `i .. n-1`
before an iteration to the rows `i .. n-1` after it. -/
theorem REF_step_lin (i n : Nat) (M : Mat) (h : HasNonzero i n M)
    (Q : (Nat → ℚ) → Prop) (hQ : LinClosed n Q)
    (hM : ∀ r, i ≤ r → r < n → Q (M r)) :
    ∀ r, i ≤ r → r < n → Q (REF_step i n M r) := by
  obtain ⟨h1, h2, h3, h4, -⟩ := leftmost_spec i n M h
  intro r hr1 hr2
  rcases Nat.eq_or_lt_of_le hr1 with e | hlt
  · subst e
    refine hQ _ _ _ (1 / M (leftmost i n M).2 (leftmost i n M).1) 0
      (hM _ h2 h3) (hM _ h2 h3) ?_
    intro c hc
    rw [REF_step_pivot_row i n M h c hc]
    ring
  · by_cases hp : r = (leftmost i n M).2
    · refine hQ _ _ _ 1
        (-(M i (leftmost i n M).1 / M (leftmost i n M).2 (leftmost i n M).1))
        (hM i (le_refl _) (by omega)) (hM _ h2 h3) ?_
      intro c hc
      rw [REF_step_lower_row i n M h r c hlt hr2 hc, if_pos hp, if_pos hp]
      ring
    · refine hQ _ _ _ 1
        (-(M r (leftmost i n M).1 / M (leftmost i n M).2 (leftmost i n M).1))
        (hM r hr1 hr2) (hM _ h2 h3) ?_
      intro c hc
      rw [REF_step_lower_row i n M h r c hlt hr2 hc, if_neg hp, if_neg hp]
      ring

theorem linClosed_zero_at (n c : Nat) (hc : c < 2 * n) : LinClosed n (fun v => v c = 0) := by
  intro v w u a b hv hw hu
  rw [hu c hc, hv, hw]
  ring

/-- An iteration extends the staircase by one row. -/
theorem REF_step_stair (i n : Nat) (M : Mat) (hi : i < n) (h : HasNonzero i n M)
    (hS : Stair n i M) : Stair n (i + 1) (REF_step i n M) := by
  obtain ⟨h1, h2, h3, h4, h5, -⟩ := leftmost_spec i n M h
  intro r hr
  rcases Nat.lt_or_ge r i with hlt | hge
  · obtain ⟨c, hc, hone, hleft, hbelow⟩ := hS r hlt
    refine ⟨c, hc, ?_, ?_, ?_⟩
    · rw [REF_step_outside i n M h r c (Or.inl hlt)]
      exact hone
    · intro c' hc'
      rw [REF_step_outside i n M h r c' (Or.inl hlt)]
      exact hleft c' hc'
    · intro r' c' hr1 hr2 hc'
      rcases Nat.lt_or_ge r' i with hlt' | hge'
      · rw [REF_step_outside i n M h r' c' (Or.inl hlt')]
        exact hbelow r' c' hr1 hr2 hc'
      · exact REF_step_lin i n M h (fun v => v c' = 0) (linClosed_zero_at n c' (by omega))
          (fun q hq1 hq2 => hbelow q c' (by omega) hq2 hc') r' hge' hr2
  · have hri : r = i := by omega
    subst hri
    refine ⟨(leftmost r n M).1, h1, ?_, ?_, ?_⟩
    · rw [REF_step_pivot_row r n M h _ (by omega)]
      exact div_self h4
    · intro c' hc'
      rw [REF_step_pivot_row r n M h _ (by omega), h5 _ c' h2 h3 hc', zero_div]
    · intro r' c' hr1 hr2 hc'
      rw [REF_step_lower_row r n M h r' c' hr1 hr2 (by omega)]
      rcases Nat.eq_or_lt_of_le hc' with e | hlt
      · subst e
        rw [div_self h4, one_mul, sub_self]
      · rw [h5 _ c' h2 h3 hlt, zero_div, zero_mul, sub_zero]
        split_ifs
        · exact h5 r c' (le_refl _) hi hlt
        · exact h5 r' c' (by omega) hr2 hlt

/-! ## The elimination loop of `REF` -/

/-- Induction over the elimination loop: an invariant `I` of the loop head that
the iterations keep holds when the loop is left, at some row `k` from which on the
left block is zero (`k = n` when the loop runs to its end). -/
theorem REF_loop_ind (n : Nat) (I : Nat → Mat → Prop)
    (hstep : ∀ i M, i < n → HasNonzero i n M → I i M → I (i + 1) (REF_step i n M)) :
    ∀ left i M, i + left = n → I i M → (0 < left → HasNonzero i n M) →
      ∃ k, i ≤ k ∧ k ≤ n ∧ I k (REF_loop n left i M) ∧
        ∀ r c, k ≤ r → r < n → c < n → REF_loop n left i M r c = 0 := by
  intro left
  induction left with
  | zero =>
    intro i M hi hI _
    exact ⟨i, le_refl _, by omega, hI, fun r c h1 h2 _ => by omega⟩
  | succ m ih =>
    intro i M hi hI hnz
    have hnz := hnz (Nat.succ_pos _)
    have hI1 := hstep i M (by omega) hnz hI
    rw [REF_loop]
    by_cases hchk : check_nonzero_row i n (REF_step i n M) = false
    · rw [if_pos hchk]
      rw [check_nonzero_row_false] at hchk
      exact ⟨i + 1, by omega, by omega, hI1, fun r c h1 h2 h3 => hchk r c (by omega) h2 h3⟩
    · rw [if_neg hchk]
      have hnz1 : HasNonzero (i + 1) n (REF_step i n M) := by
        rw [check_nonzero_row_false] at hchk
        by_contra hcon
        apply hchk
        intro r c h1 h2 h3
        by_contra hne
        exact hcon ⟨r, c, by omega, h2, h3, hne⟩
      obtain ⟨k, hk1, hk2, hk3, hk4⟩ := ih (i + 1) _ (by omega) hI1 (fun _ => hnz1)
      exact ⟨k, by omega, hk2, hk3, hk4⟩

/-! ## Row echelon form -/

theorem leading_eq_some (n : Nat) (M : Mat) (r c : Nat) :
    leading n M r = some c ↔ c < n ∧ M r c ≠ 0 ∧ ∀ c', c' < c → M r c' = 0 := by
  unfold leading
  rw [List.find?_range_eq_some]
  simp only [List.mem_range, decide_eq_true_eq, Bool.not_eq_true', decide_eq_false_iff_not,
    not_not]
  tauto

theorem leading_eq_none (n : Nat) (M : Mat) (r : Nat) :
    leading n M r = none ↔ ∀ c, c < n → M r c = 0 := by
  unfold leading
  rw [List.find?_range_eq_none]
  simp only [Bool.not_eq_true', decide_eq_false_iff_not, not_not]

/-- A staircase on the rows `0 .. k-1` above zero rows `k .. n-1` is a row echelon form. -/
theorem stair_rowEchelon (n k : Nat) (M : Mat) (hS : Stair n k M)
    (hz : ∀ r c, k ≤ r → r < n → c < n → M r c = 0) : RowEchelon n M := by
  have hlead : ∀ r c, r < n → leading n M r = some c →
      r < k ∧ ∀ r' c', r < r' → r' < n → c' ≤ c → M r' c' = 0 := by
    intro r c hr hl
    rw [leading_eq_some] at hl
    obtain ⟨hc, hne, hleft⟩ := hl
    have hrk : r < k := by
      by_contra hge
      exact hne (hz r c (by omega) hr hc)
    refine ⟨hrk, ?_⟩
    obtain ⟨c1, hc1, hone, hleft1, hbelow⟩ := hS r hrk
    have : c ≤ c1 := by
      by_contra hlt
      have := hleft c1 (by omega)
      rw [hone] at this
      exact one_ne_zero this
    intro r' c' h1 h2 h3
    exact hbelow r' c' h1 h2 (by omega)
  refine ⟨?_, ?_, ?_⟩
  · intro r a b hr ha hb
    obtain ⟨-, hbelow⟩ := hlead r a (by omega) ha
    rw [leading_eq_some] at hb
    by_contra hle
    exact hb.2.1 (hbelow (r + 1) b (by omega) hr (by omega))
  · intro r r' hr hr' hnone hsome
    rw [leading_eq_none] at hnone
    have hrk : k ≤ r := by
      by_contra hlt
      obtain ⟨c1, hc1, hone, -⟩ := hS r (by omega)
      have := hnone c1 hc1
      rw [hone] at this
      exact one_ne_zero this
    have hr'k : r' < k := by
      by_contra hge
      apply hsome
      rw [leading_eq_none]
      intro c hc
      exact hz r' c (by omega) hr' hc
    omega
  · intro r c r' hr hl h1 h2
    exact (hlead r c hr hl).2 r' c h1 h2 (le_refl _)

/-! ## `REF` on the heap -/

theorem REF_fst (h : Heap) (dim : Int) (a : Nat) : (REF h dim a).1 = h.next := rfl

theorem REF_mem (h : Heap) (n : Nat) (a : Nat) :
    (REF h (n : Int) a).2.mem h.next =
      REF_loop n n 0 (augment_identity n (copy_cells n n (h.mem h.next) (h.mem a))) := by
  simp [REF, mat_zeros, copy_mat, Heap.modify]

theorem REF_mem_other (h : Heap) (dim : Int) (a p : Nat) (hp : p ≠ h.next) :
    (REF h dim a).2.mem p = h.mem p := by
  simp [REF, mat_zeros, copy_mat, Heap.modify, Function.update_noteq hp]

/-- The augmented matrix `[A | I]` that `REF` builds before its elimination loop. -/
theorem augmented_cells (n : Nat) (G A : Mat) (r c : Nat) :
    augment_identity n (copy_cells n n G A) r c =
      if r < n ∧ c < n then A r c
      else if r < n ∧ c < 2 * n then (if c = r + n then 1 else 0)
      else G r c := by
  rw [augment_identity_eq, copy_cells_eq]
  beta_reduce
  split_ifs <;> first | rfl | (exfalso; omega)

theorem stair_zero (n : Nat) (M : Mat) : Stair n 0 M := by
  intro r hr
  exact absurd hr (Nat.not_lt_zero _)

/-- The matrix `REF` returns is a staircase above zero rows. -/
theorem REF_stair (h : Heap) (n a : Nat)
    (hA : ∃ i j, i < n ∧ j < n ∧ h.mem a i j ≠ 0) :
    ∃ k, k ≤ n ∧ Stair n k ((REF h (n : Int) a).2.mem (REF h (n : Int) a).1) ∧
      ∀ r c, k ≤ r → r < n → c < n → (REF h (n : Int) a).2.mem (REF h (n : Int) a).1 r c = 0 := by
  rw [REF_fst, REF_mem]
  obtain ⟨i, j, hi, hj, hne⟩ := hA
  obtain ⟨k, -, hk, hS, hz⟩ := REF_loop_ind n (fun i M => Stair n i M)
    (fun i M hi hnz hS => REF_step_stair i n M hi hnz hS) n 0
    (augment_identity n (copy_cells n n (h.mem h.next) (h.mem a))) (by omega)
    (stair_zero _ _)
    (fun _ => ⟨i, j, Nat.zero_le _, hi, hj, by
      rw [augmented_cells, if_pos ⟨hi, hj⟩]; exact hne⟩)
  exact ⟨k, hk, hS, hz⟩

/-! ## Linear algebra of the row operations -/

theorem linClosed_rowRel (n : Nat) (A : Mat) : LinClosed n (RowRel n A) := by
  intro v w u a b hv hw hu c hc
  rw [hu c (by omega), hv c hc, hw c hc, Finset.mul_sum, Finset.mul_sum, ← Finset.sum_add_distrib]
  refine Finset.sum_congr rfl ?_
  intro k hk
  rw [hu (n + k) (by have := Finset.mem_range.1 hk; omega)]
  ring

theorem det_swap_rows (i p n : Nat) (M : Mat) (hi : i < n) (hp : p < n)
    (hd : (block n n M).det ≠ 0) : (block n n (swap_rows i p n M)).det ≠ 0 := by
  have e : block n n (swap_rows i p n M) =
      (block n n M).submatrix (Equiv.swap (⟨i, hi⟩ : Fin n) ⟨p, hp⟩) id := by
    ext r c
    have hc : (c : Nat) < 2 * n := by have := c.isLt; omega
    simp only [block, Matrix.of_apply, Matrix.submatrix_apply, id, swap_rows_eq, hc, if_true,
      Equiv.swap_apply_def, Fin.ext_iff]
    split_ifs <;> rfl
  rw [e, Matrix.det_permute]
  refine mul_ne_zero ?_ hd
  exact_mod_cast Units.ne_zero _

theorem det_normalize_row (i c0 n : Nat) (M : Mat) (hi : i < n) (hv : M i c0 ≠ 0)
    (hd : (block n n M).det ≠ 0) : (block n n (normalize_row i c0 n M)).det ≠ 0 := by
  have e : block n n (normalize_row i c0 n M) =
      Matrix.updateRow (block n n M) ⟨i, hi⟩ ((M i c0)⁻¹ • (block n n M ⟨i, hi⟩)) := by
    ext r c
    have hc : (c : Nat) < 2 * n := by have := c.isLt; omega
    simp only [block, Matrix.of_apply, normalize_row_eq, hc, and_true, Matrix.updateRow_apply,
      Fin.ext_iff, Pi.smul_apply, smul_eq_mul]
    split_ifs
    · rw [div_eq_inv_mul]
    · rfl
  rw [e, Matrix.det_updateRow_smul, Matrix.updateRow_eq_self]
  exact mul_ne_zero (inv_ne_zero hv) hd

theorem det_zeros_below (i c0 n : Nat) (M : Mat) (hi : i < n) :
    (block n n (zeros_below i c0 n M)).det = (block n n M).det := by
  refine Matrix.det_eq_of_forall_row_eq_smul_add_const
    (fun r : Fin n => if i < (r : Nat) then -(M r c0 / M i c0) else 0) ⟨i, hi⟩ (by simp) ?_
  intro r c
  have hc : (c : Nat) ≤ 2 * n := by have := c.isLt; omega
  simp only [block, Matrix.of_apply, zeros_below_eq, hc, r.isLt, and_true]
  split_ifs
  · ring
  · ring

/-- An iteration of the elimination loop keeps the left block invertible. -/
theorem REF_step_det (i n : Nat) (M : Mat) (hi : i < n) (h : HasNonzero i n M)
    (hd : (block n n M).det ≠ 0) : (block n n (REF_step i n M)).det ≠ 0 := by
  obtain ⟨h1, h2, h3, h4, -⟩ := leftmost_spec i n M h
  unfold REF_step
  rw [det_zeros_below _ _ _ _ hi]
  refine det_normalize_row _ _ _ _ hi ?_ (det_swap_rows _ _ _ _ hi h3 hd)
  rw [swap_rows_eq]
  have e5 : (leftmost i n M).1 < 2 * n := by omega
  simp only [e5, if_true]
  exact h4

/-- An iteration of the elimination loop keeps `left = right × A` in every row. -/
theorem REF_step_rowRel (i n : Nat) (M A : Mat) (h : HasNonzero i n M)
    (hR : ∀ r, r < n → RowRel n A (M r)) : ∀ r, r < n → RowRel n A (REF_step i n M r) := by
  intro r hr
  rcases Nat.lt_or_ge r i with hlt | hge
  · have : REF_step i n M r = M r := by
      funext c
      exact REF_step_outside i n M h r c (Or.inl hlt)
    rw [this]
    exact hR r hr
  · exact REF_step_lin i n M h _ (linClosed_rowRel n A) (fun q _ hq => hR q hq) r hge hr

/-- The augmented matrix `[A | I]` satisfies `left = right × A`. -/
theorem augmented_rowRel (n : Nat) (G A : Mat) (r : Nat) (hr : r < n) :
    RowRel n A (augment_identity n (copy_cells n n G A) r) := by
  intro c hc
  rw [augmented_cells, if_pos ⟨hr, hc⟩, Finset.sum_eq_single r]
  · rw [augmented_cells]
    have h1 : ¬ (r < n ∧ n + r < n) := by omega
    have h2 : r < n ∧ n + r < 2 * n := by omega
    rw [if_neg h1, if_pos h2, if_pos (by omega), one_mul]
  · intro k hk hne
    rw [augmented_cells]
    have hk := Finset.mem_range.1 hk
    have h1 : ¬ (r < n ∧ n + k < n) := by omega
    have h2 : r < n ∧ n + k < 2 * n := by omega
    rw [if_neg h1, if_pos h2, if_neg (by omega), zero_mul]
  · intro hnot
    exact absurd (Finset.mem_range.2 hr) hnot

theorem augmented_block (n : Nat) (G A : Mat) :
    block n n (augment_identity n (copy_cells n n G A)) = block n n A := by
  ext r c
  simp only [block, Matrix.of_apply, augmented_cells, r.isLt, c.isLt, and_self, if_true]

/-! ## `REF` on an invertible matrix -/

/-- The left block is upper triangular with unit diagonal. -/
theorem stair_full (n : Nat) (M : Mat) (hS : Stair n n M) :
    ∀ r, r < n → M r r = 1 ∧ ∀ c, c < r → M r c = 0 := by
  have hlt : ∀ r c c', r + 1 < n →
      (c < n ∧ M r c = 1 ∧ (∀ c', c' < c → M r c' = 0) ∧
        ∀ r' c', r < r' → r' < n → c' ≤ c → M r' c' = 0) →
      (c' < n ∧ M (r + 1) c' = 1 ∧ (∀ c'', c'' < c' → M (r + 1) c'' = 0) ∧
        ∀ r' c'', r + 1 < r' → r' < n → c'' ≤ c' → M r' c'' = 0) → c < c' := by
    intro r c c' hr h1 h2
    by_contra hle
    have := h1.2.2.2 (r + 1) c' (by omega) hr (by omega)
    rw [h2.2.1] at this
    exact one_ne_zero this
  have hge : ∀ r, r < n → ∀ c, (c < n ∧ M r c = 1 ∧ (∀ c', c' < c → M r c' = 0) ∧
        ∀ r' c', r < r' → r' < n → c' ≤ c → M r' c' = 0) → r ≤ c := by
    intro r
    induction r with
    | zero => intro _ c _; exact Nat.zero_le _
    | succ m ih =>
      intro hm c hc
      obtain ⟨c1, hc1⟩ := hS m (by omega)
      have := ih (by omega) c1 hc1
      have := hlt m c1 c hm hc1 hc
      omega
  have hle : ∀ d r, r + d + 1 = n → ∀ c, (c < n ∧ M r c = 1 ∧ (∀ c', c' < c → M r c' = 0) ∧
        ∀ r' c', r < r' → r' < n → c' ≤ c → M r' c' = 0) → c ≤ r := by
    intro d
    induction d with
    | zero => intro r hr c hc; omega
    | succ m ih =>
      intro r hr c hc
      obtain ⟨c1, hc1⟩ := hS (r + 1) (by omega)
      have := ih (r + 1) (by omega) c1 hc1
      have := hlt r c c1 (by omega) hc hc1
      omega
  intro r hr
  obtain ⟨c, hc⟩ := hS r hr
  have h1 := hge r hr c hc
  have h2 := hle (n - r - 1) r (by omega) c hc
  have e : c = r := by omega
  subst e
  exact ⟨hc.2.1, hc.2.2.1⟩

/-- On an augmented matrix with invertible left block the elimination loop runs to
its end and leaves an upper triangular left block with unit diagonal. -/
theorem REF_loop_invertible (n : Nat) (A M0 : Mat) (hd : (block n n M0).det ≠ 0)
    (hR : ∀ r, r < n → RowRel n A (M0 r)) :
    (∀ r, r < n → REF_loop n n 0 M0 r r = 1) ∧
    (∀ r c, r < n → c < r → REF_loop n n 0 M0 r c = 0) ∧
    (∀ r, r < n → RowRel n A (REF_loop n n 0 M0 r)) := by
  have hnz : ∀ k M, k < n → (block n n M).det ≠ 0 → HasNonzero k n M := by
    intro k M hk hdet
    by_contra hcon
    apply hdet
    refine Matrix.det_eq_zero_of_row_eq_zero ⟨k, hk⟩ ?_
    intro j
    by_contra hne
    exact hcon ⟨k, j, le_refl _, hk, j.isLt, hne⟩
  obtain ⟨k, -, hk, ⟨hS, hRel, hdet⟩, hz⟩ := REF_loop_ind n
    (fun i M => Stair n i M ∧ (∀ r, r < n → RowRel n A (M r)) ∧ (block n n M).det ≠ 0)
    (fun i M hi h ⟨h1, h2, h3⟩ =>
      ⟨REF_step_stair i n M hi h h1, REF_step_rowRel i n M A h h2, REF_step_det i n M hi h h3⟩)
    n 0 M0 (by omega) ⟨stair_zero _ _, hR, hd⟩ (fun hpos => hnz 0 M0 hpos hd)
  have hkn : k = n := by
    by_contra hne
    have hlt : k < n := by omega
    obtain ⟨r, c, h1, h2, h3, h4⟩ := hnz k _ hlt hdet
    exact h4 (hz r c h1 h2 h3)
  subst hkn
  have hfull := stair_full k _ hS
  exact ⟨fun r hr => (hfull r hr).1, fun r c hr hc => (hfull r hr).2 c hc, hRel⟩

/-! ## Back-elimination -/

theorem erase_cells_eq (p c0 n : Nat) (M : Mat) :
    erase_cells (p, c0) n M = fun r c =>
      if r < p ∧ c0 ≤ c ∧ c < 2 * n then M r c - M r c0 / M p c0 * M p c else M r c := by
  unfold erase_cells
  refine (forLoopDown_ind (fun k T => T = fun r c =>
    if k ≤ r ∧ r < p ∧ c0 ≤ c ∧ c < 2 * n then M r c - M r c0 / M p c0 * M p c else M r c)
    p _ M (by funext r c; rw [if_neg (by omega)]) ?_).trans ?_
  · intro k t hk ht
    have hk' : t k = M k := by subst ht; funext c; simp
    have hp' : t p = M p := by subst ht; funext c; simp
    by_cases hle : c0 ≤ 2 * n
    · refine (forLoop_ind (fun l T => T = fun r c =>
        if r = k ∧ c0 ≤ c ∧ c < l then t k c - t k c0 / t p c0 * t p c else t r c)
        c0 (2 * n) _ _ hle (by funext r c; rw [if_neg (by omega)]) ?_).trans ?_
      · intro l u hl1 hl2 hu
        subst hu
        funext r c
        have hne : ¬ p = k := by omega
        simp only [Mat.set]
        split_ifs <;> first | rfl | (exfalso; omega) | simp_all
      · rw [hk', hp']
        subst ht
        funext r c
        beta_reduce
        by_cases hr : r = k
        · subst hr
          split_ifs <;> first | rfl | (exfalso; omega)
        · have h1 : ¬ (r = k ∧ c0 ≤ c ∧ c < 2 * n) := by omega
          rw [if_neg h1]
          split_ifs <;> first | rfl | (exfalso; omega)
    · rw [forLoop_empty _ _ _ _ (by omega)]
      subst ht
      funext r c
      split_ifs <;> first | rfl | (exfalso; omega)
  · funext r c
    split_ifs <;> first | rfl | (exfalso; omega)

/-- With zeros left of a nonzero diagonal entry in row `k`, the pivot search of
`erase_zeros_above(k, k, ..)` stops at `(k, k)`. -/
theorem rightmost_diag (k : Nat) (M : Mat) (hz : ∀ c, c < k → M k c = 0) (hne : M k k ≠ 0) :
    rightmost k k M = some (k, k) := by
  unfold rightmost
  have hf : (List.range (k + 1)).find? (fun j => decide (M k j ≠ 0)) = some k := by
    rw [List.find?_range_eq_some]
    refine ⟨by simpa using hne, List.mem_range.2 (by omega), ?_⟩
    intro j hj
    simpa using hz j hj
  rw [List.range_succ, List.reverse_append, List.reverse_singleton, List.singleton_append,
    List.findSome?_cons]
  rw [← List.range_succ, hf]
  rfl

/-- One call of `erase_zeros_above(b, b, ..)` on an upper triangular left block
with unit diagonal whose columns right of `b` are cleared: the pivot is located at
`(b, b)` and column `b` is cleared as well. -/
theorem backInv_step (n : Nat) (A : Mat) (b : Nat) (t : Mat) (hb : b < n)
    (h : BackInv n A (b + 1) t) :
    rightmost b b t = some (b, b) ∧ BackInv n A b (erase_zeros_above b b n t).2 := by
  obtain ⟨h1, h2, h3, h4⟩ := h
  have hpiv : rightmost b b t = some (b, b) :=
    rightmost_diag b t (fun c hc => h2 b c hb hc) (by rw [h1 b hb]; exact one_ne_zero)
  have hE : (erase_zeros_above b b n t).2 = fun r c =>
      if r < b ∧ b ≤ c ∧ c < 2 * n then t r c - t r b / t b b * t b c else t r c := by
    unfold erase_zeros_above
    rw [hpiv]
    exact erase_cells_eq b b n t
  refine ⟨hpiv, ?_⟩
  rw [hE]
  refine ⟨?_, ?_, ?_, ?_⟩
  · intro r hr
    have e : ¬ (r < b ∧ b ≤ r ∧ r < 2 * n) := by omega
    simp only [e, if_false]
    exact h1 r hr
  · intro r c hr hc
    have e : ¬ (r < b ∧ b ≤ c ∧ c < 2 * n) := by omega
    simp only [e, if_false]
    exact h2 r c hr hc
  · intro r c hrc hc hbc
    beta_reduce
    by_cases hrb : r < b
    · rw [if_pos ⟨hrb, hbc, by omega⟩]
      rcases Nat.eq_or_lt_of_le hbc with e | hlt
      · subst e
        rw [h1 b hb]
        ring
      · rw [h3 r c hrc hc (by omega), h3 b c hlt hc (by omega)]
        ring
    · have e : ¬ (r < b ∧ b ≤ c ∧ c < 2 * n) := by omega
      rw [if_neg e]
      exact h3 r c hrc hc (by omega)
  · intro r hr
    by_cases hrb : r < b
    · refine linClosed_rowRel n A (t r) (t b) _ 1 (-(t r b / t b b)) (h4 r hr) (h4 b hb) ?_
      intro c hc
      beta_reduce
      by_cases hbc : b ≤ c
      · rw [if_pos ⟨hrb, hbc, hc⟩]
        ring
      · have e : ¬ (r < b ∧ b ≤ c ∧ c < 2 * n) := by omega
        rw [if_neg e, h2 b c hb (by omega)]
        ring
    · have e : (fun c => if r < b ∧ b ≤ c ∧ c < 2 * n then t r c - t r b / t b b * t b c
          else t r c) = t r := by
        funext c
        have e : ¬ (r < b ∧ b ≤ c ∧ c < 2 * n) := by omega
        rw [if_neg e]
      beta_reduce
      rw [e]
      exact h4 r hr

/-- What the back-elimination loop has established when `row_bound` is about to
take the value `k - 1`. -/
theorem RREF_loop_invertible (n : Nat) (A M1 : Mat)
    (hdiag : ∀ r, r < n → M1 r r = 1) (hlow : ∀ r c, r < n → c < r → M1 r c = 0)
    (hR : ∀ r, r < n → RowRel n A (M1 r)) :
    (∀ r c, r < n → c < n → RREF_loop n M1 r c = if r = c then 1 else 0) ∧
    (∀ r, r < n → RowRel n A (RREF_loop n M1 r)) := by
  unfold RREF_loop
  have key := forLoopDown_ind (fun k M => BackInv n A k M)
    n (fun b M => (erase_zeros_above b b n M).2) M1
    ⟨hdiag, hlow, fun r c h1 h2 h3 => by omega, hR⟩
    (fun b t hb ht => (backInv_step n A b t hb ht).2)
  obtain ⟨h1, h2, h3, h4⟩ := key
  refine ⟨?_, h4⟩
  intro r c hr hc
  rcases Nat.lt_trichotomy r c with h | h | h
  · rw [if_neg (by omega)]
    exact h3 r c h hc (Nat.zero_le _)
  · subst h
    rw [if_pos rfl]
    exact h1 r hr
  · rw [if_neg (by omega)]
    exact h2 r c hr h

/-! ## `RREF` and `inv` on the heap -/

theorem extract_right_eq (n : Nat) (new mat : Mat) :
    extract_right n new mat = fun i j => if i < n ∧ j < n then mat i (j + n) else new i j := by
  unfold extract_right
  refine forLoop_ind (fun k T => T = fun i j => if i < k ∧ j < n then mat i (j + n) else new i j)
    0 n _ _ (Nat.zero_le _) (by simp) ?_
  intro k t _ hk ht
  refine (forLoop_ind (fun l T => T = fun i j =>
    if (i < k ∧ j < n) ∨ (i = k ∧ j + n < l) then mat i (j + n) else new i j) n (2 * n) _ _
    (by omega) (by subst ht; funext i j; split_ifs <;> first | rfl | (exfalso; omega)) ?_).trans ?_
  · intro l u hl1 hl2 hu
    subst hu
    funext i j
    simp only [Mat.set]
    by_cases hij : i = k ∧ j = l - n
    · obtain ⟨rfl, rfl⟩ := hij
      have e : l - n + n = l := by omega
      rw [if_pos ⟨rfl, rfl⟩, if_pos (Or.inr ⟨rfl, by omega⟩), e]
    · rw [if_neg hij]
      split_ifs <;> first | rfl | (exfalso; omega)
  · funext i j
    split_ifs <;> first | rfl | (exfalso; omega)

theorem RREF_fst (h : Heap) (dim : Int) (p : Nat) : (RREF h dim p).1 = h.next := rfl

/-- The augmented block after `RREF`, when it is not the block `RREF` allocates. -/
theorem RREF_mem_arg (h : Heap) (n p : Nat) (hp : p ≠ h.next) :
    (RREF h (n : Int) p).2.mem p = RREF_loop n (h.mem p) := by
  simp [RREF, mat_zeros, Heap.modify, Function.update_noteq hp]

/-- The block `RREF` returns, when its argument is not the block it allocates. -/
theorem RREF_mem_result (h : Heap) (n p : Nat) (hp : p ≠ h.next) :
    (RREF h (n : Int) p).2.mem h.next =
      extract_right n (h.mem h.next) (RREF_loop n (h.mem p)) := by
  simp [RREF, mat_zeros, Heap.modify, Function.update_noteq hp, Function.update_noteq hp.symm]

theorem REF_next (h : Heap) (dim : Int) (a : Nat) : (REF h dim a).2.next = h.next + 1 := rfl

theorem inv_fst (h : Heap) (dim : Int) (a : Nat) : (inv h dim a).1 = h.next + 1 := rfl

/-- The block `inv` returns: the right half of the augmented matrix after both
reduction phases. -/
theorem inv_mem (h : Heap) (n a : Nat) :
    (inv h (n : Int) a).2.mem (inv h (n : Int) a).1 =
      extract_right n (h.mem (h.next + 1))
        (RREF_loop n (REF_loop n n 0
          (augment_identity n (copy_cells n n (h.mem h.next) (h.mem a))))) := by
  have hne : (REF h (n : Int) a).1 ≠ (REF h (n : Int) a).2.next := by
    rw [REF_fst, REF_next]; omega
  show (RREF (REF h n a).2 n (REF h n a).1).2.mem (RREF (REF h n a).2 n (REF h n a).1).1 = _
  rw [RREF_fst, RREF_mem_result _ _ _ hne, REF_next, REF_mem_other _ _ _ _ (by omega),
    REF_fst, REF_mem]

/-- The matrix `inv` returns is a left inverse of an input with nonzero determinant. -/
theorem inv_left_inverse (h : Heap) (n a : Nat) (hd : (block n n (h.mem a)).det ≠ 0) :
    block n n ((inv h (n : Int) a).2.mem (inv h (n : Int) a).1) * block n n (h.mem a) = 1 := by
  obtain ⟨h1, h2, h3⟩ := REF_loop_invertible n (h.mem a)
    (augment_identity n (copy_cells n n (h.mem h.next) (h.mem a)))
    (by rw [augmented_block]; exact hd) (fun r hr => augmented_rowRel n _ _ r hr)
  obtain ⟨h4, h5⟩ := RREF_loop_invertible n (h.mem a) _ h1 h2 h3
  rw [inv_mem, extract_right_eq]
  ext r c
  rw [Matrix.mul_apply]
  have := h5 r r.isLt c c.isLt
  rw [h4 r c r.isLt c.isLt] at this
  rw [Matrix.one_apply]
  simp only [Fin.ext_iff]
  rw [this, ← Fin.sum_univ_eq_sum_range
    (fun k => RREF_loop n (REF_loop n n 0
      (augment_identity n (copy_cells n n (h.mem h.next) (h.mem a)))) r (n + k) * h.mem a k c)]
  refine Finset.sum_congr rfl ?_
  intro k _
  simp only [block, Matrix.of_apply, r.isLt, k.isLt, and_self, if_true, add_comm]

/-! ## The inverse -/

theorem det_ne_zero_of_isUnit (n : Nat) (A : Mat) (hA : IsUnit (block n n A)) :
    (block n n A).det ≠ 0 :=
  ((Matrix.isUnit_iff_isUnit_det _).1 hA).ne_zero

/-- C1: for every N ≥ 1 and every invertible N×N matrix A, in exact arithmetic,
the matrix returned by `inv(N, A)` is a two-sided inverse of A: `A × inv(N, A)`
and `inv(N, A) × A` are both the identity. -/
theorem inv_two_sided (h : Heap) (N a : Nat) (_hN : 1 ≤ N) (hA : IsUnit (block N N (h.mem a))) :
    block N N (h.mem a) * block N N ((inv h (N : Int) a).2.mem (inv h (N : Int) a).1) = 1 ∧
    block N N ((inv h (N : Int) a).2.mem (inv h (N : Int) a).1) * block N N (h.mem a) = 1 := by
  have hl := inv_left_inverse h N a (det_ne_zero_of_isUnit N _ hA)
  exact ⟨Matrix.mul_eq_one_comm.1 hl, hl⟩

theorem isUnit_example3 : IsUnit (block 3 3 (ofRows [[7, 9, 3], [4, 6, 8], [5, 2, 5]])) := by
  rw [Matrix.isUnit_iff_isUnit_det, isUnit_iff_ne_zero, Matrix.det_fin_three]
  simp [block, ofRows]
  norm_num

theorem isUnit_swap2 : IsUnit (block 2 2 (ofRows [[0, 1], [1, 0]])) := by
  rw [Matrix.isUnit_iff_isUnit_det, isUnit_iff_ne_zero, Matrix.det_fin_two]
  simp [block, ofRows]

/-- The two inputs named by C1: the 3×3 example of the source comment and the 2×2
matrix that needs a row swap in the first elimination step. -/
theorem inv_two_sided_witness :
    (IsUnit (block 3 3 ((heapWith 3 3 (ofRows [[7, 9, 3], [4, 6, 8], [5, 2, 5]]) identityMat).mem 0)) ∧
      block 3 3 ((heapWith 3 3 (ofRows [[7, 9, 3], [4, 6, 8], [5, 2, 5]]) identityMat).mem 0) *
        block 3 3 ((inv (heapWith 3 3 (ofRows [[7, 9, 3], [4, 6, 8], [5, 2, 5]]) identityMat)
          ((3 : Nat) : Int) 0).2.mem
          (inv (heapWith 3 3 (ofRows [[7, 9, 3], [4, 6, 8], [5, 2, 5]]) identityMat)
            ((3 : Nat) : Int) 0).1) = 1) ∧
    (IsUnit (block 2 2 ((heapWith 2 2 (ofRows [[0, 1], [1, 0]]) identityMat).mem 0)) ∧
      block 2 2 ((heapWith 2 2 (ofRows [[0, 1], [1, 0]]) identityMat).mem 0) *
        block 2 2 ((inv (heapWith 2 2 (ofRows [[0, 1], [1, 0]]) identityMat)
          ((2 : Nat) : Int) 0).2.mem
          (inv (heapWith 2 2 (ofRows [[0, 1], [1, 0]]) identityMat) ((2 : Nat) : Int) 0).1) = 1) :=
  ⟨⟨isUnit_example3,
      (inv_two_sided (heapWith 3 3 (ofRows [[7, 9, 3], [4, 6, 8], [5, 2, 5]]) identityMat) 3 0
        (by decide) isUnit_example3).1⟩,
    ⟨isUnit_swap2,
      (inv_two_sided (heapWith 2 2 (ofRows [[0, 1], [1, 0]]) identityMat) 2 0
        (by decide) isUnit_swap2).1⟩⟩

/-- The inverse that `inv` returns for the 3×3 example of the source comment:
`(1/212) · [[14, -39, 54], [20, 20, -44], [-22, 31, 6]]`. -/
theorem inv_example3 (g : Mat) :
    block 3 3 ((inv (heapWith 3 3 (ofRows [[7, 9, 3], [4, 6, 8], [5, 2, 5]]) g)
        ((3 : Nat) : Int) 0).2.mem
      (inv (heapWith 3 3 (ofRows [[7, 9, 3], [4, 6, 8], [5, 2, 5]]) g) ((3 : Nat) : Int) 0).1) =
    block 3 3 (ofRows [[14 / 212, -39 / 212, 54 / 212], [20 / 212, 20 / 212, -44 / 212],
      [-22 / 212, 31 / 212, 6 / 212]]) := by
  have hd : (block 3 3 ((heapWith 3 3 (ofRows [[7, 9, 3], [4, 6, 8], [5, 2, 5]]) g).mem 0)).det
      ≠ 0 := det_ne_zero_of_isUnit 3 _ isUnit_example3
  have hl := inv_left_inverse _ 3 0 hd
  have hc : block 3 3 ((heapWith 3 3 (ofRows [[7, 9, 3], [4, 6, 8], [5, 2, 5]]) g).mem 0) *
      block 3 3 (ofRows [[14 / 212, -39 / 212, 54 / 212], [20 / 212, 20 / 212, -44 / 212],
        [-22 / 212, 31 / 212, 6 / 212]]) = 1 := by
    ext i j
    fin_cases i <;> fin_cases j <;>
      simp [Matrix.mul_apply, Fin.sum_univ_three, block, ofRows, heapWith] <;> norm_num
  have := congrArg (fun X => X * block 3 3 (ofRows [[14 / 212, -39 / 212, 54 / 212],
    [20 / 212, 20 / 212, -44 / 212], [-22 / 212, 31 / 212, 6 / 212]])) hl
  simp only [Matrix.mul_assoc, hc, mul_one, one_mul] at this
  exact this

theorem block_identityMat (n : Nat) (A : Mat)
    (hI : ∀ i j, i < n → j < n → A i j = if i = j then 1 else 0) : block n n A = 1 := by
  ext i j
  simp only [block, Matrix.of_apply, hI i j i.isLt j.isLt, Matrix.one_apply, Fin.ext_iff]

/-- C2: for every n ≥ 1, `inv(n, I_n)` is `I_n` exactly: the returned matrix has 1
on the diagonal and 0 elsewhere. -/
theorem inv_identity (h : Heap) (n a : Nat) (_hn : 1 ≤ n)
    (hI : ∀ i j, i < n → j < n → h.mem a i j = if i = j then 1 else 0) :
    ∀ i j, i < n → j < n →
      (inv h (n : Int) a).2.mem (inv h (n : Int) a).1 i j = if i = j then 1 else 0 := by
  have e := block_identityMat n _ hI
  have hl := inv_left_inverse h n a (by rw [e, Matrix.det_one]; exact one_ne_zero)
  rw [e, mul_one] at hl
  intro i j hi hj
  have := congrFun (congrFun hl ⟨i, hi⟩) ⟨j, hj⟩
  simpa [block, Matrix.one_apply, Fin.ext_iff] using this

theorem inv_identity_witness :
    (1 ≤ 4 ∧ ∀ i j, i < 4 → j < 4 →
      (heapWith 4 4 identityMat (ofRows [[5, 6], [7, 8]])).mem 0 i j = if i = j then 1 else 0) ∧
    ∀ i j, i < 4 → j < 4 →
      (inv (heapWith 4 4 identityMat (ofRows [[5, 6], [7, 8]])) ((4 : Nat) : Int) 0).2.mem
        (inv (heapWith 4 4 identityMat (ofRows [[5, 6], [7, 8]])) ((4 : Nat) : Int) 0).1 i j
        = if i = j then 1 else 0 :=
  ⟨⟨by decide, fun _ _ _ _ => rfl⟩,
    inv_identity (heapWith 4 4 identityMat (ofRows [[5, 6], [7, 8]])) 4 0 (by decide)
      (fun _ _ _ _ => rfl)⟩

/-- C3: for every N ≥ 1 and every invertible N×N matrix A, in exact arithmetic,
applying `inv` to the matrix `inv(N, A)` returned gives back A entry by entry. -/
theorem inv_inv_eq (h : Heap) (N a : Nat) (_hN : 1 ≤ N) (hA : IsUnit (block N N (h.mem a))) :
    ∀ i j, i < N → j < N →
      (inv (inv h (N : Int) a).2 (N : Int) (inv h (N : Int) a).1).2.mem
        (inv (inv h (N : Int) a).2 (N : Int) (inv h (N : Int) a).1).1 i j = h.mem a i j := by
  have h1 := inv_left_inverse h N a (det_ne_zero_of_isUnit N _ hA)
  have hd : (block N N ((inv h (N : Int) a).2.mem (inv h (N : Int) a).1)).det ≠ 0 := by
    intro hz
    have := congrArg Matrix.det h1
    rw [Matrix.det_mul, hz, zero_mul, Matrix.det_one] at this
    exact zero_ne_one this
  have h2 := inv_left_inverse (inv h (N : Int) a).2 N (inv h (N : Int) a).1 hd
  have e : block N N ((inv (inv h (N : Int) a).2 (N : Int) (inv h (N : Int) a).1).2.mem
      (inv (inv h (N : Int) a).2 (N : Int) (inv h (N : Int) a).1).1) = block N N (h.mem a) := by
    have := congrArg (fun X => X * block N N (h.mem a)) h2
    simp only [Matrix.mul_assoc, h1, mul_one, one_mul] at this
    exact this
  intro i j hi hj
  have := congrFun (congrFun e ⟨i, hi⟩) ⟨j, hj⟩
  simpa [block] using this

theorem inv_inv_eq_witness :
    IsUnit (block 3 3 ((heapWith 3 3 (ofRows [[7, 9, 3], [4, 6, 8], [5, 2, 5]]) identityMat).mem 0)) ∧
    ∀ i j, i < 3 → j < 3 →
      (inv (inv (heapWith 3 3 (ofRows [[7, 9, 3], [4, 6, 8], [5, 2, 5]]) identityMat)
          ((3 : Nat) : Int) 0).2 ((3 : Nat) : Int)
        (inv (heapWith 3 3 (ofRows [[7, 9, 3], [4, 6, 8], [5, 2, 5]]) identityMat)
          ((3 : Nat) : Int) 0).1).2.mem
        (inv (inv (heapWith 3 3 (ofRows [[7, 9, 3], [4, 6, 8], [5, 2, 5]]) identityMat)
          ((3 : Nat) : Int) 0).2 ((3 : Nat) : Int)
        (inv (heapWith 3 3 (ofRows [[7, 9, 3], [4, 6, 8], [5, 2, 5]]) identityMat)
          ((3 : Nat) : Int) 0).1).1 i j
        = (heapWith 3 3 (ofRows [[7, 9, 3], [4, 6, 8], [5, 2, 5]]) identityMat).mem 0 i j :=
  ⟨isUnit_example3,
    inv_inv_eq (heapWith 3 3 (ofRows [[7, 9, 3], [4, 6, 8], [5, 2, 5]]) identityMat) 3 0
      (by decide) isUnit_example3⟩

/-- C4: for every N ≥ 1 and every N×N matrix A with at least one nonzero entry,
invertible or not, the left N×N block of the matrix returned by `REF(N, A)` is in
row echelon form: leading columns of consecutive nonzero rows increase strictly,
zero rows lie below nonzero rows, and below a leading entry its column is zero. -/
theorem REF_row_echelon (h : Heap) (N a : Nat) (_hN : 1 ≤ N)
    (hA : ∃ i j, i < N ∧ j < N ∧ h.mem a i j ≠ 0) :
    RowEchelon N ((REF h (N : Int) a).2.mem (REF h (N : Int) a).1) := by
  obtain ⟨k, -, hS, hz⟩ := REF_stair h N a hA
  exact stair_rowEchelon N k _ hS hz

theorem REF_row_echelon_witness :
    (1 ≤ 3 ∧ ∃ i j, i < 3 ∧ j < 3 ∧
      (heapWith 3 3 (ofRows [[0, 0, 0], [0, 2, 4], [0, 1, 2]]) identityMat).mem 0 i j ≠ 0) ∧
    RowEchelon 3
      ((REF (heapWith 3 3 (ofRows [[0, 0, 0], [0, 2, 4], [0, 1, 2]]) identityMat)
        ((3 : Nat) : Int) 0).2.mem
        (REF (heapWith 3 3 (ofRows [[0, 0, 0], [0, 2, 4], [0, 1, 2]]) identityMat)
          ((3 : Nat) : Int) 0).1) :=
  ⟨⟨by decide, 1, 1, by decide, by decide, by simp [heapWith, ofRows]⟩,
    REF_row_echelon (heapWith 3 3 (ofRows [[0, 0, 0], [0, 2, 4], [0, 1, 2]]) identityMat) 3 0
      (by decide) ⟨1, 1, by decide, by decide, by simp [heapWith, ofRows]⟩⟩

/-- C5: for every N ≥ 1 and every invertible N×N matrix A, in exact arithmetic,
after the back-elimination loop of `RREF` has run on the matrix returned by
`REF(N, A)`, the left N×N block of that augmented matrix is the identity. -/
theorem RREF_left_identity (h : Heap) (N a : Nat) (_hN : 1 ≤ N)
    (hA : IsUnit (block N N (h.mem a))) :
    ∀ i j, i < N → j < N →
      (RREF (REF h (N : Int) a).2 (N : Int) (REF h (N : Int) a).1).2.mem
        (REF h (N : Int) a).1 i j = if i = j then 1 else 0 := by
  have hne : (REF h (N : Int) a).1 ≠ (REF h (N : Int) a).2.next := by
    rw [REF_fst, REF_next]; omega
  obtain ⟨h1, h2, h3⟩ := REF_loop_invertible N (h.mem a)
    (augment_identity N (copy_cells N N (h.mem h.next) (h.mem a)))
    (by rw [augmented_block]; exact det_ne_zero_of_isUnit N _ hA)
    (fun r hr => augmented_rowRel N _ _ r hr)
  obtain ⟨h4, -⟩ := RREF_loop_invertible N (h.mem a) _ h1 h2 h3
  intro i j hi hj
  rw [RREF_mem_arg _ _ _ hne, REF_fst, REF_mem]
  exact h4 i j hi hj

theorem RREF_left_identity_witness :
    IsUnit (block 2 2 ((heapWith 2 2 (ofRows [[0, 1], [1, 0]]) identityMat).mem 0)) ∧
    ∀ i j, i < 2 → j < 2 →
      (RREF (REF (heapWith 2 2 (ofRows [[0, 1], [1, 0]]) identityMat) ((2 : Nat) : Int) 0).2
        ((2 : Nat) : Int)
        (REF (heapWith 2 2 (ofRows [[0, 1], [1, 0]]) identityMat) ((2 : Nat) : Int) 0).1).2.mem
        (REF (heapWith 2 2 (ofRows [[0, 1], [1, 0]]) identityMat) ((2 : Nat) : Int) 0).1 i j
        = if i = j then 1 else 0 :=
  ⟨isUnit_swap2,
    RREF_left_identity (heapWith 2 2 (ofRows [[0, 1], [1, 0]]) identityMat) 2 0
      (by decide) isUnit_swap2⟩

/-! ## The callers' memory -/

theorem RREF_next (h : Heap) (dim : Int) (a : Nat) : (RREF h dim a).2.next = h.next + 1 := rfl

theorem inv_next (h : Heap) (dim : Int) (a : Nat) : (inv h dim a).2.next = h.next + 2 := rfl

theorem REF_mem_zero (h : Heap) (a : Nat) : (REF h 0 a).2.mem = h.mem := by
  funext p
  simp [REF, mat_zeros, copy_mat, Heap.modify, REF_loop, augment_identity, copy_cells, forLoop]

theorem RREF_mem_zero (h : Heap) (a : Nat) : (RREF h 0 a).2.mem = h.mem := by
  funext p
  simp [RREF, mat_zeros, Heap.modify, RREF_loop, extract_right, forLoop, forLoopDown]

/-- C7, the claim as stated fails: called with `dim = 0`, `inv` has requested two
blocks from the allocator when it returns, and it returns a pointer. -/
theorem inv_rejects_counterexample :
    (inv (heapWith 0 0 identityMat identityMat) 0 0).2.next
        ≠ (heapWith 0 0 identityMat identityMat).next ∧
    (inv (heapWith 0 0 identityMat identityMat) 0 0).1 = 2 := by
  constructor
  · rw [inv_next]
    decide
  · rfl

/-- C7, amended: `inv` checks nothing about its dimension and has no error path.
Called with `dim = 0` it requests its two blocks from the allocator, both with zero
rows, executes no loop iteration, leaves the contents of every block as they were,
and returns the second block. -/
theorem inv_zero_dim (h : Heap) (a : Nat) :
    (inv h 0 a).1 = h.next + 1 ∧ (inv h 0 a).2.next = h.next + 2 ∧
    (inv h 0 a).2.shape h.next = (0, 0) ∧
    (inv h 0 a).2.shape (h.next + 1) = (0, 0) ∧
    (inv h 0 a).2.mem = h.mem := by
  refine ⟨rfl, rfl, ?_, ?_, ?_⟩
  · simp [inv, free_ptr, RREF, REF, mat_zeros, Heap.modify, copy_mat]
  · simp [inv, free_ptr, RREF, REF, mat_zeros, Heap.modify, copy_mat]
  · show (RREF (REF h 0 a).2 0 (REF h 0 a).1).2.mem = h.mem
    rw [RREF_mem_zero, REF_mem_zero]

/-! ## `mat_ops.c` -/

/-- `mat_zeros` stores nothing: every block, the returned one included, holds
what it held before the call. -/
theorem mat_zeros_mem (h : Heap) (row col : Int) : (mat_zeros h row col).2.mem = h.mem := rfl

/-- C8 at the failing input: `mat_zeros(1, 1)` on a heap whose next free block
holds a `5` returns a block whose entry `(0, 0)` is `5`, not `0`. -/
theorem mat_zeros_not_zeroed :
    (mat_zeros (heapWith 1 1 identityMat (ofRows [[5]])) 1 1).1 = 1 ∧
    (mat_zeros (heapWith 1 1 identityMat (ofRows [[5]])) 1 1).2.shape 1 = (1, 1) ∧
    (mat_zeros (heapWith 1 1 identityMat (ofRows [[5]])) 1 1).2.mem 1 0 0 = 5 := by
  refine ⟨rfl, ?_, ?_⟩
  · simp [mat_zeros, heapWith]
  · simp [mat_zeros, heapWith, ofRows]

theorem mul_cells_eq (m p n : Nat) (product L R : Mat) :
    mul_cells m p n product L R = fun i j =>
      if i < m ∧ j < n then product i j + ∑ k in Finset.range p, L i k * R k j
      else product i j := by
  unfold mul_cells
  refine forLoop_ind (fun a T => T = fun i j =>
    if i < a ∧ j < n then product i j + ∑ k in Finset.range p, L i k * R k j
    else product i j) 0 m _ _ (Nat.zero_le _) (by simp) ?_
  intro a t _ ha ht
  refine (forLoop_ind (fun b T => T = fun i j =>
    if (i < a ∧ j < n) ∨ (i = a ∧ j < b) then
      product i j + ∑ k in Finset.range p, L i k * R k j
    else product i j) 0 n _ _ (Nat.zero_le _)
    (by subst ht; funext i j; split_ifs <;> first | rfl | (exfalso; omega)) ?_).trans ?_
  · intro b u _ hb hu
    have hab : u a b = product a b := by
      subst hu
      have e : ¬ ((a < a ∧ b < n) ∨ (a = a ∧ b < b)) := by omega
      beta_reduce
      rw [if_neg e]
    refine (forLoop_ind (fun q T => T = fun i j =>
      if i = a ∧ j = b then product a b + ∑ k in Finset.range q, L a k * R k b
      else u i j) 0 p _ _ (Nat.zero_le _) ?_ ?_).trans ?_
    · funext i j
      by_cases hij : i = a ∧ j = b
      · rw [if_pos hij, hij.1, hij.2, hab, Finset.sum_range_zero, add_zero]
      · rw [if_neg hij]
    · intro q v _ hq hv
      subst hv
      funext i j
      simp only [Mat.set]
      by_cases hij : i = a ∧ j = b
      · simp only [hij, and_self, if_true]
        rw [Finset.sum_range_succ, add_assoc]
      · simp only [hij, if_false]
    · subst hu
      funext i j
      by_cases hij : i = a ∧ j = b
      · have e : (i < a ∧ j < n) ∨ (i = a ∧ j < b + 1) := by omega
        rw [if_pos hij, if_pos e, hij.1, hij.2]
      · rw [if_neg hij]
        beta_reduce
        split_ifs <;> first | rfl | (exfalso; omega)
  · funext i j
    split_ifs <;> first | rfl | (exfalso; omega)

/-- What `mat_mul` returns: each entry of the product is added to whatever the
block handed out by the allocator held. -/
theorem mat_mul_mem (h : Heap) (m p n : Nat) (l r : Nat) (i j : Nat) (hi : i < m) (hj : j < n) :
    (mat_mul h (m : Int) (p : Int) (n : Int) l r).2.mem
        (mat_mul h (m : Int) (p : Int) (n : Int) l r).1 i j =
      h.mem h.next i j + ∑ k in Finset.range p, h.mem l i k * h.mem r k j := by
  simp [mat_mul, mat_zeros, Heap.modify, mul_cells_eq, hi, hj]

/-- C9 at the failing input: `mat_mul(1, 1, 1, [[2]], [[2]])` on a heap whose next
free block holds a `5` returns `[[9]]`, not the product `[[4]]`. -/
theorem mat_mul_not_product :
    (mat_mul (heapWith 1 1 (ofRows [[2]]) (ofRows [[5]])) 1 1 1 0 0).2.mem
      (mat_mul (heapWith 1 1 (ofRows [[2]]) (ofRows [[5]])) 1 1 1 0 0).1 0 0 = 9 ∧
    ∑ k in Finset.range 1,
      (heapWith 1 1 (ofRows [[2]]) (ofRows [[5]])).mem 0 0 k *
        (heapWith 1 1 (ofRows [[2]]) (ofRows [[5]])).mem 0 k 0 = 4 := by
  constructor
  · have := mat_mul_mem (heapWith 1 1 (ofRows [[2]]) (ofRows [[5]])) 1 1 1 0 0 0 0
      (by decide) (by decide)
    rw [show ((1 : Nat) : Int) = 1 from rfl] at this
    rw [this]
    simp [heapWith, ofRows]
    norm_num
  · simp [heapWith, ofRows]
    norm_num

theorem trans_cells_eq (row col : Nat) (mat_new mat_old : Mat) :
    trans_cells row col mat_new mat_old = fun a b =>
      if b < row ∧ a < col then mat_old b a else mat_new a b := by
  unfold trans_cells
  refine forLoop_ind (fun k T => T = fun a b =>
    if b < k ∧ a < col then mat_old b a else mat_new a b) 0 row _ _ (Nat.zero_le _)
    (by simp) ?_
  intro k t _ hk ht
  refine (forLoop_ind (fun l T => T = fun a b =>
    if (b < k ∧ a < col) ∨ (b = k ∧ a < l) then mat_old b a else mat_new a b) 0 col _ _
    (Nat.zero_le _)
    (by subst ht; funext a b; split_ifs <;> first | rfl | (exfalso; omega)) ?_).trans ?_
  · intro l u _ hl hu
    subst hu
    funext a b
    simp only [Mat.set]
    by_cases hab : a = l ∧ b = k
    · obtain ⟨rfl, rfl⟩ := hab
      rw [if_pos ⟨rfl, rfl⟩, if_pos (Or.inr ⟨rfl, by omega⟩)]
    · rw [if_neg hab]
      split_ifs <;> first | rfl | (exfalso; omega)
  · funext a b
    split_ifs <;> first | rfl | (exfalso; omega)

/-- C10 at the failing input: `mat_trans(1, 2, [[1, 2]])` requests a block of one
row and two columns and stores `2` into the cell `(1, 0)`, in a row the block does
not have. -/
theorem mat_trans_writes_outside :
    (mat_trans (heapWith 1 2 (ofRows [[1, 2]]) (ofRows [[5, 5], [5, 5]])) 1 2 0).2.shape
      (mat_trans (heapWith 1 2 (ofRows [[1, 2]]) (ofRows [[5, 5], [5, 5]])) 1 2 0).1 = (1, 2) ∧
    (heapWith 1 2 (ofRows [[1, 2]]) (ofRows [[5, 5], [5, 5]])).mem
      (mat_trans (heapWith 1 2 (ofRows [[1, 2]]) (ofRows [[5, 5], [5, 5]])) 1 2 0).1 1 0 = 5 ∧
    (mat_trans (heapWith 1 2 (ofRows [[1, 2]]) (ofRows [[5, 5], [5, 5]])) 1 2 0).2.mem
      (mat_trans (heapWith 1 2 (ofRows [[1, 2]]) (ofRows [[5, 5], [5, 5]])) 1 2 0).1 1 0 = 2 := by
  refine ⟨?_, ?_, ?_⟩
  · simp [mat_trans, mat_zeros, Heap.modify, heapWith]
  · simp [mat_trans, mat_zeros, heapWith, ofRows]
  · simp [mat_trans, mat_zeros, Heap.modify, heapWith, trans_cells_eq, ofRows]

/-! ## The generator -/

/-- A call of `xorshift96` doubles the seed modulo `2^32`. -/
theorem xorshift96_seed (seed : Nat) (min max : Int) :
    (xorshift96 seed min max).2 = (seed * 2) % 2 ^ 32 := by
  simp [xorshift96, Nat.shiftLeft_eq]

theorem seed_after_eq (min max : Int) (seed k : Nat) (hs : seed < 2 ^ 32) :
    seed_after min max seed k = (seed * 2 ^ k) % 2 ^ 32 := by
  induction k with
  | zero => rw [seed_after, pow_zero, Nat.mul_one, Nat.mod_eq_of_lt hs]
  | succ m ih =>
    rw [seed_after, xorshift96_seed, ih, Nat.mod_mul_mod]
    congr 1
    ring

/-- From the 32nd call on the seed is zero, whatever it was set to. -/
theorem seed_after_32 (min max : Int) (seed k : Nat) (hs : seed < 2 ^ 32) (hk : 32 ≤ k) :
    seed_after min max seed k = 0 := by
  rw [seed_after_eq min max seed k hs]
  obtain ⟨d, rfl⟩ := Nat.exists_eq_add_of_le hk
  rw [pow_add, ← Nat.mul_assoc, Nat.mul_comm seed, Nat.mul_assoc]
  exact Nat.mul_mod_right _ _

/-- C11 at the failing input: after `s_xorshift96(1)` the seed is `0` after 32
calls of `xorshift96(0, 9)` and stays `0`, it never is `1` again, and every call
from the 33rd on returns the same number. -/
theorem xorshift96_dies :
    seed_after 0 9 (s_xorshift96 1) 32 = 0 ∧
    (∀ k, 32 ≤ k → seed_after 0 9 (s_xorshift96 1) k = 0) ∧
    (∀ k, 1 ≤ k → seed_after 0 9 (s_xorshift96 1) k ≠ s_xorshift96 1) ∧
    (∀ k, 32 ≤ k → output_at 0 9 (s_xorshift96 1) k = output_at 0 9 (s_xorshift96 1) 32) := by
  have h1 : s_xorshift96 1 = 1 := by decide
  have hlt : (1 : Nat) < 2 ^ 32 := by decide
  rw [h1]
  refine ⟨seed_after_32 0 9 1 32 hlt (le_refl _), fun k hk => seed_after_32 0 9 1 k hlt hk, ?_, ?_⟩
  · intro k hk
    rw [seed_after_eq 0 9 1 k hlt]
    obtain ⟨d, rfl⟩ := Nat.exists_eq_add_of_le hk
    intro h
    have h2 : (1 * 2 ^ (1 + d)) % 2 ^ 32 % 2 = 0 := by
      rw [Nat.mod_mod_of_dvd _ (by decide : 2 ∣ 2 ^ 32), Nat.one_mul, pow_add, pow_one,
        Nat.mul_mod_right]
    rw [h] at h2
    exact absurd h2 (by decide)
  · intro k hk
    unfold output_at
    rw [seed_after_32 0 9 1 k hlt hk, seed_after_32 0 9 1 32 hlt (le_refl _)]

/-! ## Pivot selection, swap and normalisation in `REF` -/

/-- C15: at step i of `REF`, whenever some entry in rows i..N-1 and columns 0..N-1
is nonzero, the selected position `(leftmost_row_pos, leftmost_col_pos) = (p, c)`
has `c < N` (the identity block is never a candidate), holds a nonzero entry, `c` is
the smallest column with a nonzero entry in some row from i on, and `p` is the
smallest row from i on with a nonzero entry in column `c`. -/
theorem pivot_leftmost_topmost (i N : Nat) (M : Mat) (h : HasNonzero i N M) :
    (leftmost i N M).1 < N ∧
    (i ≤ (leftmost i N M).2 ∧ (leftmost i N M).2 < N) ∧
    M (leftmost i N M).2 (leftmost i N M).1 ≠ 0 ∧
    (∀ r c, i ≤ r → r < N → c < (leftmost i N M).1 → M r c = 0) ∧
    (∀ r, i ≤ r → r < (leftmost i N M).2 → M r (leftmost i N M).1 = 0) := by
  obtain ⟨h1, h2, h3, h4, h5, h6⟩ := leftmost_spec i N M h
  exact ⟨h1, ⟨h2, h3⟩, h4, h5, h6⟩

theorem hasNonzero_example : HasNonzero 1 3 (ofRows [[1, 2, 3], [0, 0, 4], [0, 5, 6]]) :=
  ⟨2, 1, by decide, by decide, by decide, by simp [ofRows]⟩

theorem pivot_leftmost_topmost_witness :
    HasNonzero 1 3 (ofRows [[1, 2, 3], [0, 0, 4], [0, 5, 6]]) ∧
    (leftmost 1 3 (ofRows [[1, 2, 3], [0, 0, 4], [0, 5, 6]])).1 < 3 :=
  ⟨hasNonzero_example,
    (pivot_leftmost_topmost 1 3 (ofRows [[1, 2, 3], [0, 0, 4], [0, 5, 6]])
      hasNonzero_example).1⟩

/-- C16: the row swap of `REF`.  If the selected row `p` differs from `i`, then
after the swap row `i` is the former row `p` and row `p` the former row `i` in all
`2N` columns and every other row is unchanged; if `p = i` nothing changes. -/
theorem swap_rows_spec (i p N : Nat) (M : Mat) :
    (p ≠ i →
      (∀ k, k < 2 * N → swap_rows i p N M i k = M p k ∧ swap_rows i p N M p k = M i k) ∧
      (∀ r k, r ≠ i → r ≠ p → swap_rows i p N M r k = M r k)) ∧
    (p = i → swap_rows i p N M = M) := by
  rw [swap_rows_eq]
  refine ⟨fun hp => ⟨?_, ?_⟩, ?_⟩
  · intro k hk
    simp only [hk, if_true, hp, if_false]
    trivial
  · intro r k hr1 hr2
    simp only [hr1, hr2, if_false, ite_self]
  · intro hp
    subst hp
    funext r k
    split_ifs <;> simp_all

theorem swap_rows_spec_witness :
    (1 ≠ 0) ∧
    ∀ k, k < 2 * 2 →
      swap_rows 0 1 2 (ofRows [[0, 1, 1, 0], [2, 3, 0, 1]]) 0 k
          = ofRows [[0, 1, 1, 0], [2, 3, 0, 1]] 1 k ∧
        swap_rows 0 1 2 (ofRows [[0, 1, 1, 0], [2, 3, 0, 1]]) 1 k
          = ofRows [[0, 1, 1, 0], [2, 3, 0, 1]] 0 k :=
  ⟨by decide,
    ((swap_rows_spec 0 1 2 (ofRows [[0, 1, 1, 0], [2, 3, 0, 1]])).1 (by decide)).1⟩

/-- C17: for every N ≥ 1 and every N×N matrix A with a nonzero entry, in the matrix
returned by `REF(N, A)` the leftmost nonzero entry of every row whose left block is
not all zero is exactly 1. -/
theorem REF_leading_one (h : Heap) (N a : Nat) (_hN : 1 ≤ N)
    (hA : ∃ i j, i < N ∧ j < N ∧ h.mem a i j ≠ 0) :
    ∀ r c, r < N → leading N ((REF h (N : Int) a).2.mem (REF h (N : Int) a).1) r = some c →
      (REF h (N : Int) a).2.mem (REF h (N : Int) a).1 r c = 1 := by
  obtain ⟨k, -, hS, hz⟩ := REF_stair h N a hA
  intro r c hr hl
  rw [leading_eq_some] at hl
  obtain ⟨hc, hne, hleft⟩ := hl
  have hrk : r < k := by
    by_contra hge
    exact hne (hz r c (by omega) hr hc)
  obtain ⟨c1, hc1, hone, hleft1, -⟩ := hS r hrk
  have e : c = c1 := by
    rcases Nat.lt_trichotomy c c1 with hlt | heq | hgt
    · exact absurd (hleft1 c hlt) hne
    · exact heq
    · have := hleft c1 hgt
      rw [hone] at this
      exact absurd this one_ne_zero
  rw [e]
  exact hone

theorem REF_leading_one_witness :
    (1 ≤ 3 ∧ ∃ i j, i < 3 ∧ j < 3 ∧
      (heapWith 3 3 (ofRows [[0, 0, 0], [0, 2, 4], [0, 1, 2]]) identityMat).mem 0 i j ≠ 0) ∧
    ∀ r c, r < 3 →
      leading 3 ((REF (heapWith 3 3 (ofRows [[0, 0, 0], [0, 2, 4], [0, 1, 2]]) identityMat)
        ((3 : Nat) : Int) 0).2.mem
        (REF (heapWith 3 3 (ofRows [[0, 0, 0], [0, 2, 4], [0, 1, 2]]) identityMat)
          ((3 : Nat) : Int) 0).1) r = some c →
      (REF (heapWith 3 3 (ofRows [[0, 0, 0], [0, 2, 4], [0, 1, 2]]) identityMat)
        ((3 : Nat) : Int) 0).2.mem
        (REF (heapWith 3 3 (ofRows [[0, 0, 0], [0, 2, 4], [0, 1, 2]]) identityMat)
          ((3 : Nat) : Int) 0).1 r c = 1 :=
  ⟨⟨by decide, 1, 1, by decide, by decide, by simp [heapWith, ofRows]⟩,
    REF_leading_one (heapWith 3 3 (ofRows [[0, 0, 0], [0, 2, 4], [0, 1, 2]]) identityMat) 3 0
      (by decide) ⟨1, 1, by decide, by decide, by simp [heapWith, ofRows]⟩⟩

/-! ## The pivot search of `erase_zeros_above` -/

theorem rightmost_succ (rb cb : Nat) (M : Mat) :
    rightmost (rb + 1) cb M =
      match (List.range (cb + 1)).find? (fun j => decide (M (rb + 1) j ≠ 0)) with
      | some j => some (rb + 1, j)
      | none => rightmost rb cb M := by
  unfold rightmost
  rw [List.range_succ (n := rb + 1), List.reverse_append, List.reverse_singleton,
    List.singleton_append, List.findSome?_cons]
  cases (List.range (cb + 1)).find? (fun j => decide (M (rb + 1) j ≠ 0)) <;> rfl

theorem rightmost_zero (cb : Nat) (M : Mat) :
    rightmost 0 cb M =
      match (List.range (cb + 1)).find? (fun j => decide (M 0 j ≠ 0)) with
      | some j => some (0, j)
      | none => none := by
  unfold rightmost
  rw [show List.range (0 + 1) = [0] from rfl, List.reverse_singleton, List.findSome?_cons,
    List.findSome?_nil]
  cases (List.range (cb + 1)).find? (fun j => decide (M 0 j ≠ 0)) <;> rfl

theorem row_find_none (cb r : Nat) (M : Mat) :
    (List.range (cb + 1)).find? (fun j => decide (M r j ≠ 0)) = none ↔
      ∀ j, j ≤ cb → M r j = 0 := by
  rw [List.find?_range_eq_none]
  simp only [Bool.not_eq_true', decide_eq_false_iff_not, not_not]
  constructor
  · intro h j hj
    exact h j (by omega)
  · intro h j hj
    exact h j (by omega)

theorem row_find_some (cb r c : Nat) (M : Mat) :
    (List.range (cb + 1)).find? (fun j => decide (M r j ≠ 0)) = some c ↔
      c ≤ cb ∧ M r c ≠ 0 ∧ ∀ j, j < c → M r j = 0 := by
  rw [List.find?_range_eq_some]
  simp only [List.mem_range, decide_eq_true_eq, Bool.not_eq_true', decide_eq_false_iff_not,
    not_not]
  constructor
  · rintro ⟨h1, h2, h3⟩
    exact ⟨by omega, h1, h3⟩
  · rintro ⟨h1, h2, h3⟩
    exact ⟨h2, by omega, h3⟩

/-- The search finds nothing exactly when the window holds no nonzero entry. -/
theorem rightmost_none (rb cb : Nat) (M : Mat) :
    rightmost rb cb M = none ↔ ∀ i j, i ≤ rb → j ≤ cb → M i j = 0 := by
  induction rb with
  | zero =>
    rw [rightmost_zero]
    cases hf : (List.range (cb + 1)).find? (fun j => decide (M 0 j ≠ 0)) with
    | none =>
      rw [row_find_none] at hf
      simp only [true_iff]
      intro i j hi hj
      have : i = 0 := by omega
      subst this
      exact hf j hj
    | some c =>
      rw [row_find_some] at hf
      constructor
      · intro h
        exact absurd h (by simp)
      · intro hcon
        exact absurd (hcon 0 c (le_refl _) hf.1) hf.2.1
  | succ m ih =>
    rw [rightmost_succ]
    cases hf : (List.range (cb + 1)).find? (fun j => decide (M (m + 1) j ≠ 0)) with
    | none =>
      rw [row_find_none] at hf
      simp only
      rw [ih]
      constructor
      · intro h i j hi hj
        rcases Nat.eq_or_lt_of_le hi with e | hlt
        · subst e
          exact hf j hj
        · exact h i j (by omega) hj
      · intro h i j hi hj
        exact h i j (by omega) hj
    | some c =>
      rw [row_find_some] at hf
      constructor
      · intro h
        exact absurd h (by simp)
      · intro hcon
        exact absurd (hcon (m + 1) c (le_refl _) hf.1) hf.2.1

/-- The position the search stops at: a nonzero entry of the window, with zeros to
its left in its row and in every row of the window below it. -/
theorem rightmost_some (rb cb p c : Nat) (M : Mat) (h : rightmost rb cb M = some (p, c)) :
    p ≤ rb ∧ c ≤ cb ∧ M p c ≠ 0 ∧ (∀ j, j < c → M p j = 0) ∧
    ∀ i j, p < i → i ≤ rb → j ≤ cb → M i j = 0 := by
  induction rb with
  | zero =>
    rw [rightmost_zero] at h
    cases hf : (List.range (cb + 1)).find? (fun j => decide (M 0 j ≠ 0)) with
    | none =>
      rw [hf] at h
      exact absurd h (by simp)
    | some c1 =>
      rw [hf] at h
      simp only [Option.some.injEq, Prod.mk.injEq] at h
      obtain ⟨rfl, rfl⟩ := h
      rw [row_find_some] at hf
      exact ⟨le_refl _, hf.1, hf.2.1, hf.2.2, fun i j h1 h2 _ => by omega⟩
  | succ m ih =>
    rw [rightmost_succ] at h
    cases hf : (List.range (cb + 1)).find? (fun j => decide (M (m + 1) j ≠ 0)) with
    | none =>
      rw [hf] at h
      simp only at h
      rw [row_find_none] at hf
      obtain ⟨h1, h2, h3, h4, h5⟩ := ih h
      refine ⟨by omega, h2, h3, h4, ?_⟩
      intro i j hi1 hi2 hj
      rcases Nat.eq_or_lt_of_le hi2 with e | hlt
      · subst e
        exact hf j hj
      · exact h5 i j hi1 (by omega) hj
    | some c1 =>
      rw [hf] at h
      simp only [Option.some.injEq, Prod.mk.injEq] at h
      obtain ⟨rfl, rfl⟩ := h
      rw [row_find_some] at hf
      exact ⟨le_refl _, hf.1, hf.2.1, hf.2.2, fun i j h1 h2 _ => by omega⟩

/-- C19: the frame of one back-elimination step.  For a window with
`row_bound, col_bound ≤ N-1`, when the search locates the pivot `(p, c)` the call
returns `c` and changes only entries in rows strictly above `p` and in columns
`c .. 2N-1`; when the window holds no nonzero entry, the matrix is unchanged and
`-1` is returned. -/
theorem erase_zeros_above_frame (row_bound col_bound N : Nat) (M : Mat)
    (_hr : row_bound ≤ N - 1) (_hc : col_bound ≤ N - 1) :
    (∀ p c, rightmost row_bound col_bound M = some (p, c) →
      (p ≤ row_bound ∧ c ≤ col_bound ∧ M p c ≠ 0) ∧
      (erase_zeros_above row_bound col_bound N M).1 = (c : Int) ∧
      ∀ r k, (erase_zeros_above row_bound col_bound N M).2 r k ≠ M r k →
        r < p ∧ c ≤ k ∧ k < 2 * N) ∧
    ((∀ i j, i ≤ row_bound → j ≤ col_bound → M i j = 0) →
      erase_zeros_above row_bound col_bound N M = (-1, M)) := by
  constructor
  · intro p c hpc
    obtain ⟨h1, h2, h3, -⟩ := rightmost_some _ _ _ _ _ hpc
    refine ⟨⟨h1, h2, h3⟩, ?_, ?_⟩
    · unfold erase_zeros_above
      rw [hpc]
    · intro r k hne
      unfold erase_zeros_above at hne
      rw [hpc] at hne
      simp only [erase_cells_eq] at hne
      by_contra hcon
      rw [if_neg hcon] at hne
      exact hne rfl
  · intro hz
    unfold erase_zeros_above
    rw [(rightmost_none _ _ _).2 hz]

theorem rightmost_example :
    rightmost 1 1 (ofRows [[1, 2, 1, 0], [0, 1, 0, 1]]) = some (1, 1) :=
  rightmost_diag 1 _ (fun c hc => by
    have : c = 0 := by omega
    subst this
    simp [ofRows]) (by simp [ofRows])

theorem erase_zeros_above_frame_witness :
    ((1 : Nat) ≤ 2 - 1 ∧ (1 : Nat) ≤ 2 - 1) ∧
    (erase_zeros_above 1 1 2 (ofRows [[1, 2, 1, 0], [0, 1, 0, 1]])).1 = ((1 : Nat) : Int) ∧
    ∀ r k, (erase_zeros_above 1 1 2 (ofRows [[1, 2, 1, 0], [0, 1, 0, 1]])).2 r k
        ≠ ofRows [[1, 2, 1, 0], [0, 1, 0, 1]] r k → r < 1 ∧ 1 ≤ k ∧ k < 2 * 2 :=
  ⟨⟨by decide, by decide⟩,
    ((erase_zeros_above_frame 1 1 2 (ofRows [[1, 2, 1, 0], [0, 1, 0, 1]])
      (by decide) (by decide)).1 1 1 rightmost_example).2⟩

/-! ## Accesses of `REF` outside the augmented matrix -/

theorem leftmost_corner (i n : Nat) (M : Mat) (hi : i < n) (hne : M i 0 ≠ 0) :
    leftmost i n M = (0, i) := by
  obtain ⟨h1, h2, h3, h4, h5, h6⟩ := leftmost_spec i n M ⟨i, 0, le_refl _, hi, by omega, hne⟩
  have e1 : (leftmost i n M).1 = 0 := by
    by_contra hc
    exact hne (h5 i 0 (le_refl _) hi (by omega))
  have e2 : (leftmost i n M).2 = i := by
    by_contra hc
    have := h6 i (le_refl _) (by omega)
    rw [e1] at this
    exact hne this
  exact Prod.ext e1 e2

/-- The elimination below the pivot also rewrites the cell with column index `2n`
of every row it subtracts from. -/
theorem REF_step_beyond (i n : Nat) (M : Mat) (h : HasNonzero i n M) (r : Nat)
    (hr1 : i < r) (hr2 : r < n) :
    REF_step i n M r (2 * n) =
      M r (2 * n) - M i (2 * n) *
        (if r = (leftmost i n M).2 then M i (leftmost i n M).1 else M r (leftmost i n M).1) := by
  obtain ⟨h1, h2, h3, h4, -⟩ := leftmost_spec i n M h
  unfold REF_step
  simp only [zeros_below_eq, normalize_row_eq, swap_rows_eq]
  have e1 : i < r ∧ r < n ∧ 2 * n ≤ 2 * n := by omega
  have e3 : ¬ r = i := by omega
  have e5 : (leftmost i n M).1 < 2 * n := by omega
  simp only [e1, e3, e5, lt_irrefl, and_false, false_and, and_true, if_false, if_true]
  rw [div_self h4, div_one]

/-- C13 at the failing input: `REF(2, [[1, 0], [1, 0]])` requests a block of 2 rows
and 4 columns and overwrites the cell `(1, 4)`, column index `2N`, of that block:
it held `9` before the call and holds `9 - 9·1 = 0` after it. -/
theorem REF_writes_column_2N :
    (REF (heapWith 2 2 (ofRows [[1, 0], [1, 0]]) (ofRows [[9, 9, 9, 9, 9], [9, 9, 9, 9, 9]]))
        ((2 : Nat) : Int) 0).2.shape 1 = (2, 4) ∧
    (heapWith 2 2 (ofRows [[1, 0], [1, 0]]) (ofRows [[9, 9, 9, 9, 9], [9, 9, 9, 9, 9]])).mem
        1 1 4 = 9 ∧
    (REF (heapWith 2 2 (ofRows [[1, 0], [1, 0]]) (ofRows [[9, 9, 9, 9, 9], [9, 9, 9, 9, 9]]))
        ((2 : Nat) : Int) 0).2.mem 1 1 4 = 0 := by
  refine ⟨?_, ?_, ?_⟩
  · simp [REF, mat_zeros, copy_mat, Heap.modify, heapWith]
  · simp [heapWith, ofRows]
  · have hn : (heapWith 2 2 (ofRows [[1, 0], [1, 0]])
        (ofRows [[9, 9, 9, 9, 9], [9, 9, 9, 9, 9]])).next = 1 := rfl
    have hm := REF_mem (heapWith 2 2 (ofRows [[1, 0], [1, 0]])
        (ofRows [[9, 9, 9, 9, 9], [9, 9, 9, 9, 9]])) 2 0
    rw [hn] at hm
    rw [hm]
    have hc : ∀ r c, augment_identity 2 (copy_cells 2 2
        ((heapWith 2 2 (ofRows [[1, 0], [1, 0]]) (ofRows [[9, 9, 9, 9, 9], [9, 9, 9, 9, 9]])).mem 1)
        ((heapWith 2 2 (ofRows [[1, 0], [1, 0]]) (ofRows [[9, 9, 9, 9, 9], [9, 9, 9, 9, 9]])).mem 0))
        r c =
        if r < 2 ∧ c < 2 then ofRows [[1, 0], [1, 0]] r c
        else if r < 2 ∧ c < 2 * 2 then (if c = r + 2 then 1 else 0)
        else ofRows [[9, 9, 9, 9, 9], [9, 9, 9, 9, 9]] r c := fun r c => augmented_cells 2 _ _ r c
    generalize augment_identity 2 (copy_cells 2 2
        ((heapWith 2 2 (ofRows [[1, 0], [1, 0]]) (ofRows [[9, 9, 9, 9, 9], [9, 9, 9, 9, 9]])).mem 1)
        ((heapWith 2 2 (ofRows [[1, 0], [1, 0]]) (ofRows [[9, 9, 9, 9, 9], [9, 9, 9, 9, 9]])).mem 0))
        = M0 at hc
    have h00 : M0 0 0 = 1 := by rw [hc]; simp [ofRows]
    have h01 : M0 0 1 = 0 := by rw [hc]; simp [ofRows]
    have h10 : M0 1 0 = 1 := by rw [hc]; simp [ofRows]
    have h11 : M0 1 1 = 0 := by rw [hc]; simp [ofRows]
    have h04 : M0 0 4 = 9 := by rw [hc]; simp [ofRows]
    have h14 : M0 1 4 = 9 := by rw [hc]; simp [ofRows]
    have hl : leftmost 0 2 M0 = (0, 0) :=
      leftmost_corner 0 2 M0 (by decide) (by rw [h00]; exact one_ne_zero)
    have hnz : HasNonzero 0 2 M0 := ⟨0, 0, le_refl _, by decide, by decide, by
      rw [h00]; exact one_ne_zero⟩
    have hchk : check_nonzero_row 0 2 (REF_step 0 2 M0) = false := by
      rw [check_nonzero_row_false]
      intro r c hr1 hr2 hc2
      have hr : r = 1 := by omega
      subst hr
      rw [REF_step_lower_row 0 2 M0 hnz 1 c (by decide) (by decide) (by omega), hl]
      have hcc : c = 0 ∨ c = 1 := by omega
      rcases hcc with rfl | rfl
      · simp [h00, h10]
      · simp [h01, h11]
    rw [REF_loop, if_pos hchk, REF_step_beyond 0 2 M0 hnz 1 (by decide) (by decide), hl]
    simp [h04, h14, h10]

/-- C14, the claim as stated fails: on the all-zero 2×2 input the pivot search ends
with both positions equal to `N = 2`, row 0 is exchanged with row index 2 and
normalised, so the matrix returned is not `[0 | I]` (its entry `(0, 0)` is `1`, not
`0`) and the cell `(2, 2)` of row index `N`, which held `9`, holds the `1` of the
identity block. -/
theorem REF_zero_input_counterexample :
    augment_identity 2 (copy_cells 2 2
      ((heapWith 2 2 (ofRows []) (ofRows [[9, 9, 9, 9], [9, 9, 9, 9], [9, 9, 9, 9]])).mem 1)
      ((heapWith 2 2 (ofRows []) (ofRows [[9, 9, 9, 9], [9, 9, 9, 9], [9, 9, 9, 9]])).mem 0))
      0 0 = 0 ∧
    (REF (heapWith 2 2 (ofRows []) (ofRows [[9, 9, 9, 9], [9, 9, 9, 9], [9, 9, 9, 9]]))
        ((2 : Nat) : Int) 0).2.mem 1 0 0 = 1 ∧
    (heapWith 2 2 (ofRows []) (ofRows [[9, 9, 9, 9], [9, 9, 9, 9], [9, 9, 9, 9]])).mem
        1 2 2 = 9 ∧
    (REF (heapWith 2 2 (ofRows []) (ofRows [[9, 9, 9, 9], [9, 9, 9, 9], [9, 9, 9, 9]]))
        ((2 : Nat) : Int) 0).2.mem 1 2 2 = 1 := by
  have hn : (heapWith 2 2 (ofRows [])
      (ofRows [[9, 9, 9, 9], [9, 9, 9, 9], [9, 9, 9, 9]])).next = 1 := rfl
  have hm := REF_mem (heapWith 2 2 (ofRows [])
      (ofRows [[9, 9, 9, 9], [9, 9, 9, 9], [9, 9, 9, 9]])) 2 0
  rw [hn] at hm
  rw [hm]
  have hc : ∀ r c, augment_identity 2 (copy_cells 2 2
      ((heapWith 2 2 (ofRows []) (ofRows [[9, 9, 9, 9], [9, 9, 9, 9], [9, 9, 9, 9]])).mem 1)
      ((heapWith 2 2 (ofRows []) (ofRows [[9, 9, 9, 9], [9, 9, 9, 9], [9, 9, 9, 9]])).mem 0))
      r c =
      if r < 2 ∧ c < 2 then ofRows [] r c
      else if r < 2 ∧ c < 2 * 2 then (if c = r + 2 then 1 else 0)
      else ofRows [[9, 9, 9, 9], [9, 9, 9, 9], [9, 9, 9, 9]] r c :=
    fun r c => augmented_cells 2 _ _ r c
  have hg : (heapWith 2 2 (ofRows [])
      (ofRows [[9, 9, 9, 9], [9, 9, 9, 9], [9, 9, 9, 9]])).mem 1 2 2 = 9 := by
    simp [heapWith, ofRows]
  generalize augment_identity 2 (copy_cells 2 2
      ((heapWith 2 2 (ofRows []) (ofRows [[9, 9, 9, 9], [9, 9, 9, 9], [9, 9, 9, 9]])).mem 1)
      ((heapWith 2 2 (ofRows []) (ofRows [[9, 9, 9, 9], [9, 9, 9, 9], [9, 9, 9, 9]])).mem 0))
      = M0 at hc ⊢
  have hleft : ∀ r c, r < 2 → c < 2 → M0 r c = 0 := by
    intro r c hr hc2
    rw [hc, if_pos ⟨hr, hc2⟩]
    simp [ofRows]
  have h02 : M0 0 2 = 1 := by rw [hc]; simp
  have h12 : M0 1 2 = 0 := by rw [hc]; simp
  have h20 : M0 2 0 = 9 := by rw [hc]; simp [ofRows]
  have h22 : M0 2 2 = 9 := by rw [hc]; simp [ofRows]
  have hl : leftmost 0 2 M0 = (2, 2) :=
    leftmost_none 0 2 M0 (by decide) (fun r c _ hr hc2 => hleft r c hr hc2)
  have hstep : ∀ r c, REF_step 0 2 M0 r c =
      if 0 < r ∧ r < 2 ∧ c ≤ 2 * 2 then
        (if c < 2 * 2 then (if r = 2 then M0 0 c else M0 r c) else M0 r c)
          - (if c < 2 * 2 then M0 2 c / M0 2 2 else M0 0 c)
            * ((if r = 2 then M0 0 2 else M0 r 2) / (M0 2 2 / M0 2 2))
      else if r = 0 ∧ c < 2 * 2 then M0 2 c / M0 2 2
      else if c < 2 * 2 then (if r = 0 then M0 2 c else if r = 2 then M0 0 c else M0 r c)
      else M0 r c := by
    intro r c
    unfold REF_step
    rw [hl]
    simp only [zeros_below_eq, normalize_row_eq, swap_rows_eq]
    split_ifs <;> first | rfl | (exfalso; omega) | simp_all
  have hchk : check_nonzero_row 0 2 (REF_step 0 2 M0) = false := by
    rw [check_nonzero_row_false]
    intro r c hr1 hr2 hc2
    have hr : r = 1 := by omega
    subst hr
    rw [hstep]
    simp [hleft 1 c (by decide) hc2, h12, show c < 4 by omega, show c ≤ 4 by omega]
  rw [REF_loop, if_pos hchk, hstep, hstep]
  refine ⟨hleft 0 0 (by decide) (by decide), ?_, hg, ?_⟩
  · simp [h20, h22]
  · simp [h02]

/-- C14, amended: `REF` tests for remaining nonzero entries only at the end of an
iteration, in the rows strictly below `i`.  If after the swap, normalisation and
elimination of step `i` no entry in rows i+1..N-1 and columns 0..N-1 is nonzero,
the loop terminates at once and the matrix is the one step `i` left; otherwise
step `i + 1` is entered, and it finds a nonzero entry in rows i+1..N-1. -/
theorem REF_break_after_step (N left i : Nat) (M : Mat) :
    ((∀ r c, i < r → r < N → c < N → REF_step i N M r c = 0) →
      REF_loop N (left + 1) i M = REF_step i N M) ∧
    ((∃ r c, i < r ∧ r < N ∧ c < N ∧ REF_step i N M r c ≠ 0) →
      REF_loop N (left + 1) i M = REF_loop N left (i + 1) (REF_step i N M) ∧
      HasNonzero (i + 1) N (REF_step i N M)) := by
  constructor
  · intro hz
    rw [REF_loop, if_pos ((check_nonzero_row_false i N _).2 hz)]
  · rintro ⟨r, c, h1, h2, h3, h4⟩
    have hchk : ¬ check_nonzero_row i N (REF_step i N M) = false := by
      rw [check_nonzero_row_false]
      intro hz
      exact h4 (hz r c h1 h2 h3)
    rw [REF_loop, if_neg hchk]
    exact ⟨rfl, r, c, by omega, h2, h3, h4⟩

theorem step_zero_example :
    ∀ r c, 0 < r → r < 2 → c < 2 →
      REF_step 0 2 (ofRows [[1, 0, 1, 0], [1, 0, 0, 1]]) r c = 0 := by
  intro r c hr1 hr2 hc2
  have h00 : ofRows [[1, 0, 1, 0], [1, 0, 0, 1]] 0 0 ≠ 0 := by simp [ofRows]
  have hr : r = 1 := by omega
  subst hr
  rw [REF_step_lower_row 0 2 _ ⟨0, 0, le_refl _, by decide, by decide, h00⟩ 1 c (by decide)
    (by decide) (by omega), leftmost_corner 0 2 _ (by decide) h00]
  have hcc : c = 0 ∨ c = 1 := by omega
  rcases hcc with rfl | rfl <;> simp [ofRows]

theorem REF_break_after_step_witness :
    (∀ r c, 0 < r → r < 2 → c < 2 →
      REF_step 0 2 (ofRows [[1, 0, 1, 0], [1, 0, 0, 1]]) r c = 0) ∧
    REF_loop 2 (1 + 1) 0 (ofRows [[1, 0, 1, 0], [1, 0, 0, 1]])
      = REF_step 0 2 (ofRows [[1, 0, 1, 0], [1, 0, 0, 1]]) :=
  ⟨step_zero_example,
    (REF_break_after_step 2 1 0 (ofRows [[1, 0, 1, 0], [1, 0, 0, 1]])).1 step_zero_example⟩

/-! ## The iterations of the two loops -/

theorem foldl_fst {σ τ : Type} (body1 : Nat → σ × τ → σ × τ) (body : Nat → σ → σ)
    (hb : ∀ k s, (body1 k s).1 = body k s.1) (l : List Nat) (s : σ × τ) :
    (l.foldl (fun s k => body1 k s) s).1 = l.foldl (fun s k => body k s) s.1 := by
  induction l generalizing s with
  | nil => rfl
  | cons x xs ih => rw [List.foldl_cons, List.foldl_cons, ih, hb]

/-- The last recorded state is the matrix the elimination loop returns. -/
theorem REF_states_last (n : Nat) : ∀ left i M,
    REF_loop n left i M = ((REF_states n left i M).getLast?).getD M := by
  intro left
  induction left with
  | zero => intro i M; rfl
  | succ m ih =>
    intro i M
    rw [REF_loop, REF_states]
    by_cases hchk : check_nonzero_row i n (REF_step i n M) = false
    · rw [if_pos hchk, if_pos hchk]
      rfl
    · rw [if_neg hchk, if_neg hchk, ih]
      cases hl : REF_states n m (i + 1) (REF_step i n M) with
      | nil => rfl
      | cons x xs =>
        rw [List.getLast?_cons_cons, List.getLast?_eq_getLast _ (List.cons_ne_nil _ _)]
        rfl

/-- The recorded loop works on the same matrices as the loop of `RREF`. -/
theorem RREF_calls_fst (n : Nat) (M : Mat) : (RREF_calls n M).1 = RREF_loop n M :=
  foldl_fst _ _ (fun _ _ => rfl) _ _

/-- C18: for every N ≥ 1 and every invertible N×N matrix A, when `RREF` runs on
`REF(N, A)`, the calls `erase_zeros_above(k, k, N, mat)` for `k = N-1` down to `0`
locate their pivots at `(N-1, N-1), ..., (0, 0)`: the pivot of the call with bounds
`k` is found in row `k` and column `k`. -/
theorem RREF_pivots_diagonal (h : Heap) (N a : Nat) (_hN : 1 ≤ N)
    (hA : IsUnit (block N N (h.mem a))) :
    (RREF_calls N ((REF h (N : Int) a).2.mem (REF h (N : Int) a).1)).2.map Prod.fst =
      (List.range N).reverse.map (fun k => some (k, k)) := by
  obtain ⟨h1, h2, h3⟩ := REF_loop_invertible N (h.mem a)
    (augment_identity N (copy_cells N N (h.mem h.next) (h.mem a)))
    (by rw [augmented_block]; exact det_ne_zero_of_isUnit N _ hA)
    (fun r hr => augmented_rowRel N _ _ r hr)
  rw [REF_fst, REF_mem]
  unfold RREF_calls
  have key := forLoopDown_ind (fun k s =>
    BackInv N (h.mem a) k s.1 ∧
    s.2.map Prod.fst = (List.range' k (N - k)).reverse.map (fun k => some (k, k)))
    N (fun b s =>
      ((erase_zeros_above b b N s.1).2,
        s.2 ++ [(rightmost b b s.1, (erase_zeros_above b b N s.1).2)]))
    (REF_loop N N 0 (augment_identity N (copy_cells N N (h.mem h.next) (h.mem a))), [])
    ⟨⟨h1, h2, fun r c h1 h2 h3 => by omega, h3⟩, by simp⟩ ?_
  · rw [key.2, Nat.sub_zero, List.range_eq_range']
  · intro b t hb ⟨ht1, ht2⟩
    obtain ⟨hp, hinv⟩ := backInv_step N (h.mem a) b t.1 hb ht1
    refine ⟨hinv, ?_⟩
    have e : N - b = (N - (b + 1)) + 1 := by omega
    rw [List.map_append, ht2, hp, e, List.range'_succ]
    simp

theorem RREF_pivots_diagonal_witness :
    IsUnit (block 3 3 ((heapWith 3 3 (ofRows [[7, 9, 3], [4, 6, 8], [5, 2, 5]]) identityMat).mem 0)) ∧
    (RREF_calls 3
      ((REF (heapWith 3 3 (ofRows [[7, 9, 3], [4, 6, 8], [5, 2, 5]]) identityMat)
        ((3 : Nat) : Int) 0).2.mem
        (REF (heapWith 3 3 (ofRows [[7, 9, 3], [4, 6, 8], [5, 2, 5]]) identityMat)
          ((3 : Nat) : Int) 0).1)).2.map Prod.fst =
      (List.range 3).reverse.map (fun k => some (k, k)) :=
  ⟨isUnit_example3,
    RREF_pivots_diagonal (heapWith 3 3 (ofRows [[7, 9, 3], [4, 6, 8], [5, 2, 5]]) identityMat)
      3 0 (by decide) isUnit_example3⟩

/-! ## The invariant of the augmented matrix -/

theorem augRel_of_rowRel (n : Nat) (A M : Mat) (hR : ∀ r, r < n → RowRel n A (M r)) :
    AugRel n A M := by
  unfold AugRel
  ext r c
  rw [Matrix.mul_apply]
  have := hR r r.isLt c c.isLt
  simp only [block, rightBlock, Matrix.of_apply]
  rw [this, ← Fin.sum_univ_eq_sum_range (fun k => M r (n + k) * A k c)]

/-- Every state the elimination loop passes through keeps a property that each
iteration keeps. -/
theorem REF_states_ind (n : Nat) (I : Mat → Prop)
    (hstep : ∀ i M, i < n → HasNonzero i n M → I M → I (REF_step i n M)) :
    ∀ left i M, i + left = n → I M → (0 < left → HasNonzero i n M) →
      ∀ T, T ∈ REF_states n left i M → I T := by
  intro left
  induction left with
  | zero =>
    intro i M _ _ _ T hT
    simp [REF_states] at hT
  | succ m ih =>
    intro i M hi hI hnz T hT
    have hnz := hnz (Nat.succ_pos _)
    have hI1 := hstep i M (by omega) hnz hI
    rw [REF_states] at hT
    by_cases hchk : check_nonzero_row i n (REF_step i n M) = false
    · rw [if_pos hchk] at hT
      rw [List.mem_singleton] at hT
      rw [hT]
      exact hI1
    · rw [if_neg hchk] at hT
      rcases List.mem_cons.1 hT with e | hmem
      · rw [e]
        exact hI1
      · have hnz1 : HasNonzero (i + 1) n (REF_step i n M) := by
          rw [check_nonzero_row_false] at hchk
          by_contra hcon
          apply hchk
          intro r c h1 h2 h3
          by_contra hne
          exact hcon ⟨r, c, by omega, h2, h3, hne⟩
        exact ih (i + 1) _ (by omega) hI1 (fun _ => hnz1) T hmem

/-- A call of `erase_zeros_above` keeps `left = right × A` in every row, whatever
the matrix: the pivot row is zero left of the pivot. -/
theorem erase_rowRel (n rb cb : Nat) (A M : Mat) (hrb : rb < n)
    (hR : ∀ r, r < n → RowRel n A (M r)) :
    ∀ r, r < n → RowRel n A ((erase_zeros_above rb cb n M).2 r) := by
  intro r hr
  unfold erase_zeros_above
  cases hpc : rightmost rb cb M with
  | none => exact hR r hr
  | some pos =>
    obtain ⟨p, c⟩ := pos
    obtain ⟨h1, h2, h3, h4, -⟩ := rightmost_some _ _ _ _ _ hpc
    simp only [erase_cells_eq]
    by_cases hrp : r < p
    · refine linClosed_rowRel n A (M r) (M p) _ 1 (-(M r c / M p c)) (hR r hr)
        (hR p (by omega)) ?_
      intro k hk
      by_cases hck : c ≤ k
      · rw [if_pos ⟨hrp, hck, hk⟩]
        ring
      · have e : ¬ (r < p ∧ c ≤ k ∧ k < 2 * n) := by omega
        rw [if_neg e, h4 k (by omega)]
        ring
    · have e : (fun k => if r < p ∧ c ≤ k ∧ k < 2 * n then M r k - M r c / M p c * M p k
          else M r k) = M r := by
        funext k
        have e : ¬ (r < p ∧ c ≤ k ∧ k < 2 * n) := by omega
        rw [if_neg e]
      rw [e]
      exact hR r hr

/-- C20: for every N ≥ 1 and every N×N matrix A with a nonzero entry, the
augmented matrix `[L | R]` satisfies `R × A = L` when it is built (with `L = A` and
`R = I`), after every iteration of the elimination loop of `REF`, and after every
iteration of the back-elimination loop of `RREF` run on the result of `REF`. -/
theorem augmented_invariant (h : Heap) (N a : Nat) (_hN : 1 ≤ N)
    (hA : ∃ i j, i < N ∧ j < N ∧ h.mem a i j ≠ 0) :
    (block N N (augment_identity N (copy_cells N N (h.mem h.next) (h.mem a)))
        = block N N (h.mem a) ∧
      rightBlock N (augment_identity N (copy_cells N N (h.mem h.next) (h.mem a))) = 1 ∧
      AugRel N (h.mem a) (augment_identity N (copy_cells N N (h.mem h.next) (h.mem a)))) ∧
    (∀ T, T ∈ REF_states N N 0
        (augment_identity N (copy_cells N N (h.mem h.next) (h.mem a))) →
      AugRel N (h.mem a) T) ∧
    (∀ c, c ∈ (RREF_calls N ((REF h (N : Int) a).2.mem (REF h (N : Int) a).1)).2 →
      AugRel N (h.mem a) c.2) := by
  obtain ⟨i, j, hi, hj, hne⟩ := hA
  have h0 : ∀ r, r < N → RowRel N (h.mem a)
      (augment_identity N (copy_cells N N (h.mem h.next) (h.mem a)) r) :=
    fun r hr => augmented_rowRel N _ _ r hr
  have hnz : HasNonzero 0 N (augment_identity N (copy_cells N N (h.mem h.next) (h.mem a))) :=
    ⟨i, j, Nat.zero_le _, hi, hj, by rw [augmented_cells, if_pos ⟨hi, hj⟩]; exact hne⟩
  refine ⟨⟨augmented_block N _ _, ?_, augRel_of_rowRel N _ _ h0⟩, ?_, ?_⟩
  · ext r c
    simp only [rightBlock, Matrix.of_apply, augmented_cells, Matrix.one_apply, Fin.ext_iff]
    have e1 : ¬ ((r : Nat) < N ∧ N + (c : Nat) < N) := by omega
    have e2 : (r : Nat) < N ∧ N + (c : Nat) < 2 * N := by
      have := r.isLt; have := c.isLt; omega
    rw [if_neg e1, if_pos e2]
    by_cases hrc : (r : Nat) = c
    · rw [if_pos hrc, if_pos (by omega)]
    · rw [if_neg hrc, if_neg (by omega)]
  · intro T hT
    exact augRel_of_rowRel N _ _ (REF_states_ind N (fun M => ∀ r, r < N → RowRel N (h.mem a) (M r))
      (fun i M _ hnz hI => REF_step_rowRel i N M (h.mem a) hnz hI) N 0 _ (by omega) h0
      (fun _ => hnz) T hT)
  · obtain ⟨k, -, -, hrel, -⟩ := REF_loop_ind N
      (fun _ M => ∀ r, r < N → RowRel N (h.mem a) (M r))
      (fun i M _ hnz hI => REF_step_rowRel i N M (h.mem a) hnz hI) N 0 _ (by omega) h0
      (fun _ => hnz)
    rw [REF_fst, REF_mem]
    unfold RREF_calls
    have key := forLoopDown_ind (fun _ s =>
      (∀ r, r < N → RowRel N (h.mem a) (s.1 r)) ∧
      ∀ c, c ∈ s.2 → ∀ r, r < N → RowRel N (h.mem a) (c.2 r))
      N (fun b s =>
        ((erase_zeros_above b b N s.1).2,
          s.2 ++ [(rightmost b b s.1, (erase_zeros_above b b N s.1).2)]))
      (REF_loop N N 0 (augment_identity N (copy_cells N N (h.mem h.next) (h.mem a))), [])
      ⟨hrel, fun c hc => by simp at hc⟩ ?_
    · intro c hc
      exact augRel_of_rowRel N _ _ (key.2 c hc)
    · intro b t hb ⟨ht1, ht2⟩
      have hnew := erase_rowRel N b b (h.mem a) t.1 hb ht1
      refine ⟨hnew, ?_⟩
      intro c hc
      rcases List.mem_append.1 hc with hc | hc
      · exact ht2 c hc
      · rw [List.mem_singleton] at hc
        rw [hc]
        exact hnew

theorem augmented_invariant_witness :
    (1 ≤ 3 ∧ ∃ i j, i < 3 ∧ j < 3 ∧
      (heapWith 3 3 (ofRows [[0, 0, 0], [0, 2, 4], [0, 1, 2]]) identityMat).mem 0 i j ≠ 0) ∧
    ∀ T, T ∈ REF_states 3 3 0
        (augment_identity 3 (copy_cells 3 3
          ((heapWith 3 3 (ofRows [[0, 0, 0], [0, 2, 4], [0, 1, 2]]) identityMat).mem
            (heapWith 3 3 (ofRows [[0, 0, 0], [0, 2, 4], [0, 1, 2]]) identityMat).next)
          ((heapWith 3 3 (ofRows [[0, 0, 0], [0, 2, 4], [0, 1, 2]]) identityMat).mem 0))) →
      AugRel 3 ((heapWith 3 3 (ofRows [[0, 0, 0], [0, 2, 4], [0, 1, 2]]) identityMat).mem 0) T :=
  ⟨⟨by decide, 1, 1, by decide, by decide, by simp [heapWith, ofRows]⟩,
    (augmented_invariant (heapWith 3 3 (ofRows [[0, 0, 0], [0, 2, 4], [0, 1, 2]]) identityMat)
      3 0 (by decide) ⟨1, 1, by decide, by decide, by simp [heapWith, ofRows]⟩).2.1⟩

/-! ## The divisions of `inv` -/

theorem foldl_row_other (body : Nat → Mat → Mat) (r : Nat)
    (hb : ∀ k M, body k M r = M r) (l : List Nat) (M : Mat) :
    (l.foldl (fun M k => body k M) M) r = M r := by
  induction l generalizing M with
  | nil => rfl
  | cons x xs ih => rw [List.foldl_cons, ih, hb]

theorem set_row_other (M : Mat) (j k r : Nat) (v : ℚ) (h : r ≠ j) : M.set j k v r = M r := by
  funext c
  simp [Mat.set, h]

theorem normalize_row_div_fst (i c n : Nat) (s : Mat × List ℚ) :
    (normalize_row_div i c n s).1 = normalize_row i c n s.1 :=
  foldl_fst _ _ (fun _ _ => rfl) _ _

theorem zeros_below_div_fst (i c n : Nat) (s : Mat × List ℚ) :
    (zeros_below_div i c n s).1 = zeros_below i c n s.1 := by
  refine foldl_fst _ _ ?_ _ _
  intro j t
  beta_reduce
  split_ifs <;> rfl

theorem REF_step_div_fst (i n : Nat) (s : Mat × List ℚ) :
    (REF_step_div i n s).1 = REF_step i n s.1 := by
  unfold REF_step_div REF_step
  rw [zeros_below_div_fst, normalize_row_div_fst]

theorem REF_loop_div_fst (n : Nat) : ∀ left i (s : Mat × List ℚ),
    (REF_loop_div n left i s).1 = REF_loop n left i s.1 := by
  intro left
  induction left with
  | zero => intro i s; rfl
  | succ m ih =>
    intro i s
    rw [REF_loop_div, REF_loop]
    simp only [REF_step_div_fst]
    split_ifs
    · exact REF_step_div_fst i n s
    · rw [ih, REF_step_div_fst]

theorem erase_cells_div_fst (pos : Nat × Nat) (n : Nat) (s : Mat × List ℚ) :
    (erase_cells_div pos n s).1 = erase_cells pos n s.1 :=
  foldl_fst _ _ (fun _ _ => rfl) _ _

theorem erase_zeros_above_div_fst (rb cb n : Nat) (s : Mat × List ℚ) :
    (erase_zeros_above_div rb cb n s).1 = (erase_zeros_above rb cb n s.1).2 := by
  unfold erase_zeros_above_div erase_zeros_above
  cases rightmost rb cb s.1 with
  | none => rfl
  | some pos => exact erase_cells_div_fst pos n s

theorem RREF_loop_div_fst (n : Nat) (s : Mat × List ℚ) :
    (RREF_loop_div n s).1 = RREF_loop n s.1 :=
  foldl_fst _ _ (fun b t => erase_zeros_above_div_fst b b n t) _ _

/-- The recorded run works on the matrices of `inv`: its final matrix is the
augmented matrix after both reduction phases (compare `inv_mem`). -/
theorem inv_divisors_run (n : Nat) (A G : Mat) :
    (RREF_loop_div n
      (REF_loop_div n n 0 (augment_identity n (copy_cells n n G A), []))).1 =
    RREF_loop n (REF_loop n n 0 (augment_identity n (copy_cells n n G A))) := by
  rw [RREF_loop_div_fst, REF_loop_div_fst]

theorem normalize_row_div_nonzero (i c n : Nat) (s : Mat × List ℚ) (hv : s.1 i c ≠ 0)
    (hs : ∀ d, d ∈ s.2 → d ≠ 0) : ∀ d, d ∈ (normalize_row_div i c n s).2 → d ≠ 0 := by
  unfold normalize_row_div
  refine forLoop_ind (fun _ t => ∀ d, d ∈ t.2 → d ≠ 0) 0 (2 * n) _ s (Nat.zero_le _) hs ?_
  intro k t _ _ ht d hd
  rcases List.mem_append.1 hd with h | h
  · exact ht d h
  · rw [List.mem_singleton] at h
    rw [h]
    exact hv

theorem zeros_below_div_nonzero (i c n : Nat) (s : Mat × List ℚ) (hv : s.1 i c ≠ 0)
    (hs : ∀ d, d ∈ s.2 → d ≠ 0) : ∀ d, d ∈ (zeros_below_div i c n s).2 → d ≠ 0 := by
  unfold zeros_below_div
  by_cases hin : i + 1 ≤ n
  swap
  · rw [forLoop_empty _ _ _ _ (by omega)]
    exact hs
  have key := forLoop_ind (fun _ (t : Mat × List ℚ) => t.1 i = s.1 i ∧ ∀ d, d ∈ t.2 → d ≠ 0)
    (i + 1) n
    (fun j (s : Mat × List ℚ) =>
      if s.1 j c ≠ 0 then
        (forLoop 0 (2 * n + 1) (fun k M => M.set j k (M j k - M i k * (s.1 j c / s.1 i c))) s.1,
          s.2 ++ [s.1 i c])
      else s) s hin ⟨rfl, hs⟩ ?_
  · exact key.2
  · intro j t hj1 hj2 ⟨ht1, ht2⟩
    beta_reduce
    split_ifs with hz
    · refine ⟨?_, ?_⟩
      · rw [← ht1]
        exact foldl_row_other _ i (fun k M => set_row_other M j k i _ (by omega)) _ _
      · intro d hd
        rcases List.mem_append.1 hd with h | h
        · exact ht2 d h
        · rw [List.mem_singleton] at h
          rw [h, ht1]
          exact hv
    · exact ⟨ht1, ht2⟩

/-- The divisors of one iteration of the elimination loop are the pivot and the
normalised pivot `1`. -/
theorem REF_step_div_nonzero (i n : Nat) (s : Mat × List ℚ) (h : HasNonzero i n s.1)
    (hs : ∀ d, d ∈ s.2 → d ≠ 0) : ∀ d, d ∈ (REF_step_div i n s).2 → d ≠ 0 := by
  obtain ⟨h1, h2, h3, h4, -⟩ := leftmost_spec i n s.1 h
  unfold REF_step_div
  have e5 : (leftmost i n s.1).1 < 2 * n := by omega
  have hsw : swap_rows i (leftmost i n s.1).2 n s.1 i (leftmost i n s.1).1
      = s.1 (leftmost i n s.1).2 (leftmost i n s.1).1 := by
    rw [swap_rows_eq]
    simp only [e5, if_true]
  refine zeros_below_div_nonzero _ _ _ _ ?_
    (normalize_row_div_nonzero _ _ _ _ (by
      show swap_rows i (leftmost i n s.1).2 n s.1 i (leftmost i n s.1).1 ≠ 0
      rw [hsw]; exact h4) hs)
  rw [normalize_row_div_fst, normalize_row_eq]
  simp only [e5, and_self, if_true]
  rw [hsw, div_self h4]
  exact one_ne_zero

theorem REF_loop_div_nonzero (n : Nat) : ∀ left i (s : Mat × List ℚ),
    (0 < left → HasNonzero i n s.1) → (∀ d, d ∈ s.2 → d ≠ 0) →
    ∀ d, d ∈ (REF_loop_div n left i s).2 → d ≠ 0 := by
  intro left
  induction left with
  | zero => intro i s _ hs; exact hs
  | succ m ih =>
    intro i s hnz hs
    have hnz := hnz (Nat.succ_pos _)
    have h1 := REF_step_div_nonzero i n s hnz hs
    rw [REF_loop_div]
    by_cases hchk : check_nonzero_row i n (REF_step_div i n s).1 = false
    · rw [if_pos hchk]
      exact h1
    · rw [if_neg hchk]
      refine ih (i + 1) _ (fun _ => ?_) h1
      rw [check_nonzero_row_false] at hchk
      by_contra hcon
      apply hchk
      intro r c hr1 hr2 hc
      by_contra hne
      exact hcon ⟨r, c, by omega, hr2, hc, hne⟩

theorem erase_cells_div_nonzero (p c n : Nat) (s : Mat × List ℚ) (hv : s.1 p c ≠ 0)
    (hs : ∀ d, d ∈ s.2 → d ≠ 0) : ∀ d, d ∈ (erase_cells_div (p, c) n s).2 → d ≠ 0 := by
  unfold erase_cells_div
  have key := forLoopDown_ind
    (fun _ (t : Mat × List ℚ) => t.1 p = s.1 p ∧ ∀ d, d ∈ t.2 → d ≠ 0) p
    (fun i (s : Mat × List ℚ) =>
      (forLoop c (2 * n) (fun j M => M.set i j (M i j - s.1 i c / s.1 p c * M p j)) s.1,
        s.2 ++ [s.1 p c])) s ⟨rfl, hs⟩ ?_
  · exact key.2
  · intro k t hk ⟨ht1, ht2⟩
    refine ⟨?_, ?_⟩
    · rw [← ht1]
      exact foldl_row_other _ p (fun j M => set_row_other M k j p _ (by omega)) _ _
    · intro d hd
      rcases List.mem_append.1 hd with h | h
      · exact ht2 d h
      · rw [List.mem_singleton] at h
        rw [h, ht1]
        exact hv

theorem erase_zeros_above_div_nonzero (rb cb n : Nat) (s : Mat × List ℚ)
    (hs : ∀ d, d ∈ s.2 → d ≠ 0) : ∀ d, d ∈ (erase_zeros_above_div rb cb n s).2 → d ≠ 0 := by
  unfold erase_zeros_above_div
  cases hpc : rightmost rb cb s.1 with
  | none => exact hs
  | some pos =>
    obtain ⟨p, c⟩ := pos
    exact erase_cells_div_nonzero p c n s (rightmost_some _ _ _ _ _ hpc).2.2.1 hs

theorem RREF_loop_div_nonzero (n : Nat) (s : Mat × List ℚ) (hs : ∀ d, d ∈ s.2 → d ≠ 0) :
    ∀ d, d ∈ (RREF_loop_div n s).2 → d ≠ 0 := by
  unfold RREF_loop_div
  exact forLoopDown_ind (fun _ t => ∀ d, d ∈ t.2 → d ≠ 0) n _ s hs
    (fun b t _ ht => erase_zeros_above_div_nonzero b b n t ht)

/-- C12: for every N ≥ 1 and every N×N matrix A with a nonzero entry, invertible
or singular, no division executed by `inv(N, A)` has a zero divisor: the divisor
`norm` and the ratio denominator `new[i][leftmost_col_pos]` in `REF`, and the ratio
denominator `mat[rightmost_row_pos][rightmost_col_pos]` in `erase_zeros_above`. -/
theorem inv_divisors_nonzero (h : Heap) (N a : Nat) (_hN : 1 ≤ N)
    (hA : ∃ i j, i < N ∧ j < N ∧ h.mem a i j ≠ 0) :
    ∀ d, d ∈ inv_divisors N (h.mem a) (h.mem h.next) → d ≠ 0 := by
  obtain ⟨i, j, hi, hj, hne⟩ := hA
  unfold inv_divisors
  refine RREF_loop_div_nonzero N _ (REF_loop_div_nonzero N N 0 _ (fun _ => ?_) ?_)
  · exact ⟨i, j, Nat.zero_le _, hi, hj, by
      show augment_identity N (copy_cells N N (h.mem h.next) (h.mem a)) i j ≠ 0
      rw [augmented_cells, if_pos ⟨hi, hj⟩]; exact hne⟩
  · intro d hd
    simp at hd

theorem inv_divisors_nonzero_witness :
    (1 ≤ 3 ∧ ∃ i j, i < 3 ∧ j < 3 ∧
      (heapWith 3 3 (ofRows [[0, 0, 0], [0, 2, 4], [0, 1, 2]]) identityMat).mem 0 i j ≠ 0) ∧
    ∀ d, d ∈ inv_divisors 3
        ((heapWith 3 3 (ofRows [[0, 0, 0], [0, 2, 4], [0, 1, 2]]) identityMat).mem 0)
        ((heapWith 3 3 (ofRows [[0, 0, 0], [0, 2, 4], [0, 1, 2]]) identityMat).mem
          (heapWith 3 3 (ofRows [[0, 0, 0], [0, 2, 4], [0, 1, 2]]) identityMat).next) → d ≠ 0 :=
  ⟨⟨by decide, 1, 1, by decide, by decide, by simp [heapWith, ofRows]⟩,
    inv_divisors_nonzero (heapWith 3 3 (ofRows [[0, 0, 0], [0, 2, 4], [0, 1, 2]]) identityMat)
      3 0 (by decide) ⟨1, 1, by decide, by decide, by simp [heapWith, ofRows]⟩⟩

end MatrixInverse
